import Mathlib

/-!
# Ordered string map (`ordered_map.go`)

A shallow embedding of `OrderedStringMap` and of its operations, followed by
the properties of the ordering it maintains.

Modelling conventions.

* A Go `interface{}` value is an `Option V`: `none` is the nil interface.
* A `uint64` is a `Nat`; the only arithmetic the source does on one is
  `o.lastIndex++`, which is written with an explicit `% 2 ^ 64`.
* The Go map `map[string]*orderedStringMapEntry` is an association list.  The
  order of the list is the order in which `range o.data` enumerates the
  entries.  Entries are reached through pointers that are never shared
  between two keys, so a write through `o.data[k]` is an update of the
  entry stored at `k`.
* The definitions `Add`, `Reindex`, `getIndex`, ... are the store and counter
  updates of the methods, without the `sync.RWMutex`.  The definitions
  `WithLock.*` are the same methods with the lock as explicit state: a call
  that waits for a lock held by its own call chain ends `Outcome.blocked`,
  and every access to the store or the counter is logged with the lock state
  at that moment.  The two agree wherever the source returns
  (`WithLock_Add_of_lt`, `WithLock_Reindex_of_le`); where `getIndex` finds
  the counter at `math.MaxUint64` under `Add` or `Reindex`, the source blocks
  (`WithLock_Add_blocks`, `WithLock_Reindex_blocks_of_gt`).
* `encoding/json` is a library outside the repository: `JsonLibrary` is the
  part of it the two `MarshalJSON` methods call.
* `getIndex` and `Reindex` call each other.  The nesting depth of `Reindex`
  inside `getIndex` is bounded by a fuel argument; `none` means that the call
  does not return (the fuel ran out, or a nil pointer was dereferenced).
-/

set_option linter.unusedVariables false

namespace OrderedMap

/-- The constant `math.MaxUint64`. -/
def maxUint64 : Nat := 2 ^ 64 - 1

/-- The struct `orderedStringMapEntry`: a value and its order stamp. -/
structure orderedStringMapEntry (V : Type) where
  value : Option V
  index : Nat
deriving DecidableEq

/-- The struct `OrderedStringMap` without its lock: the store and the counter. -/
structure OrderedStringMap (V : Type) where
  data : List (String × orderedStringMapEntry V)
  lastIndex : Nat
deriving DecidableEq

section Definitions

variable {V : Type}

/-- The map read `o.data[k]` in its comma-ok form. -/
def mapLookup (k : String) :
    List (String × orderedStringMapEntry V) → Option (orderedStringMapEntry V)
  | [] => none
  | p :: rest => if p.1 = k then some p.2 else mapLookup k rest

/-- A write through the pointer `o.data[k]`: the entry stored at `k` is replaced by `f` of it. -/
def mapUpdate (k : String) (f : orderedStringMapEntry V → orderedStringMapEntry V)
    (d : List (String × orderedStringMapEntry V)) : List (String × orderedStringMapEntry V) :=
  d.map (fun p => if p.1 = k then (p.1, f p.2) else p)

/-- The map write `o.data[k] = &e` for a key that is not in the map. -/
def mapInsert (k : String) (e : orderedStringMapEntry V)
    (d : List (String × orderedStringMapEntry V)) : List (String × orderedStringMapEntry V) :=
  d ++ [(k, e)]

/-- The builtin `delete(o.data, k)`. -/
def mapDelete (k : String)
    (d : List (String × orderedStringMapEntry V)) : List (String × orderedStringMapEntry V) :=
  d.filter (fun p => decide (p.1 ≠ k))

/-- The closure given to `sort.Slice` in `getKeys`: compare the stamps of two items. -/
def less (a b : String × orderedStringMapEntry V) : Bool :=
  decide (a.2.index < b.2.index)

/-- The call `sort.Slice(items, less)`, as an insertion sort: an item is placed before
another unless the other is `less` than it.  The library sort is not stable; where the
stamps are pairwise distinct every sort returns this list (`sortSlice_keys_of_ordered`). -/
def sortSlice (items : List (String × orderedStringMapEntry V)) :
    List (String × orderedStringMapEntry V) :=
  items.insertionSort (fun a b => less b a = false)

/-- The method `getKeys`: enumerate the store, sort the items by stamp, return their keys. -/
def getKeys (locking : Bool) (o : OrderedStringMap V) : List String :=
  (sortSlice o.data).map Prod.fst

/-- The method `GetKeys`. -/
def GetKeys (o : OrderedStringMap V) : List String :=
  getKeys true o

/-- The method `Len`. -/
def Len (o : OrderedStringMap V) : Nat :=
  o.data.length

/-- The method `Get`. -/
def Get (key : String) (o : OrderedStringMap V) : Option V × Bool :=
  match mapLookup key o.data with
  | some e => (e.value, true)
  | none => (none, false)

/-- The method `Del`. -/
def Del (key : String) (o : OrderedStringMap V) : OrderedStringMap V :=
  { o with data := mapDelete key o.data }

/-- The last two statements of `getIndex`: `o.lastIndex++; return o.lastIndex`. -/
def increment (o : OrderedStringMap V) : Nat × OrderedStringMap V :=
  let n := (o.lastIndex + 1) % 2 ^ 64
  (n, { o with lastIndex := n })

/-- The loop of `Reindex`, `for _, k := range keys { o.data[k].index = o.getIndex() }`,
over the method `getIndex` it calls. -/
def reindexLoop (getIndex : OrderedStringMap V → Option (Nat × OrderedStringMap V)) :
    List String → OrderedStringMap V → Option (OrderedStringMap V)
  | [], o => some o
  | k :: ks, o =>
    match getIndex o with
    | none => none
    | some (i, o1) =>
      match mapLookup k o1.data with
      | none => none
      | some _ =>
        reindexLoop getIndex ks
          { o1 with data := mapUpdate k (fun e => { e with index := i }) o1.data }

/-- The method `getIndex`.  At `math.MaxUint64` the counter is reset and `Reindex` runs
(one unit of fuel), then the counter is incremented and returned.  The method takes no
lock itself; the `Reindex` it calls is here the body of `Reindex` without its lock, which
is what runs when `getIndex` is entered with the lock free (`WithLock.getIndex` is the
method with the lock state). -/
def getIndex : Nat → OrderedStringMap V → Option (Nat × OrderedStringMap V)
  | 0, o => if o.lastIndex = maxUint64 then none else some (increment o)
  | fuel + 1, o =>
    if o.lastIndex = maxUint64 then
      match reindexLoop (getIndex fuel) (getKeys false { o with lastIndex := 0 })
          { o with lastIndex := 0 } with
      | none => none
      | some o1 => some (increment o1)
    else some (increment o)

/-- The store and counter updates of the method `Reindex`: its body between
`o.lock.Lock()` and the deferred `o.lock.Unlock()`.  This is what the source does while
no `getIndex` of the loop finds the counter at `math.MaxUint64`, that is when
`lastIndex + len <= math.MaxUint64` (`WithLock_Reindex_of_le`); beyond that the source
waits for ever on its own lock (`WithLock_Reindex_blocks_of_gt`) and this definition only
says what the renumbering computes. -/
def Reindex (fuel : Nat) (o : OrderedStringMap V) : Option (OrderedStringMap V) :=
  reindexLoop (getIndex fuel) (getKeys false o) o

/-- The store and counter updates of the method `Add`: its body between `o.lock.Lock()`
and the deferred `o.lock.Unlock()`.  This is what the source does below `math.MaxUint64`
(`WithLock_Add_of_lt`); at `math.MaxUint64` the source waits for ever on its own lock
(`WithLock_Add_blocks`) and this definition only says what the renumbering computes. -/
def Add (fuel : Nat) (key : String) (value : Option V) (o : OrderedStringMap V) :
    Option (OrderedStringMap V) :=
  match mapLookup key o.data with
  | some _ =>
    match getIndex fuel { o with data := mapUpdate key (fun e => { e with value := value }) o.data } with
    | none => none
    | some (i, o1) =>
      some { o1 with data := mapUpdate key (fun e => { e with index := i }) o1.data }
  | none =>
    match getIndex fuel o with
    | none => none
    | some (i, o1) =>
      some { o1 with data := mapInsert key { value := value, index := i } o1.data }

/-- The constructor `NewOrderedStringMap`; the capacity hint only sizes the allocation. -/
def NewOrderedStringMap (cap : List Int) : OrderedStringMap V :=
  match cap with
  | c :: _ => { data := [], lastIndex := 0 }
  | [] => { data := [], lastIndex := 0 }

/-- The states reachable from `NewOrderedStringMap` by `Add`, `Del` and `Reindex`.  Every
state holds fewer than `2 ^ 64 - 1` entries, as every Go map does (`len` is an `int`).
The steps are the store and counter updates without the lock, so this set contains every
state the source reaches (the source makes the same steps, or none where it blocks). -/
inductive Reachable : OrderedStringMap V → Prop
  | new (cap : List Int) : Reachable (NewOrderedStringMap cap)
  | add {s s1 : OrderedStringMap V} (fuel : Nat) (k : String) (v : Option V) :
      Reachable s → Add fuel k v s = some s1 → s1.data.length < maxUint64 → Reachable s1
  | del {s : OrderedStringMap V} (k : String) : Reachable s → Reachable (Del k s)
  | reindex {s s1 : OrderedStringMap V} (fuel : Nat) :
      Reachable s → Reindex fuel s = some s1 → Reachable s1

/-- The stamp stored at a key (0 when the key is absent). -/
def stampOf (d : List (String × orderedStringMapEntry V)) (k : String) : Nat :=
  match mapLookup k d with
  | some e => e.index
  | none => 0

/-- The keys of the store, in enumeration order. -/
def keysOf (d : List (String × orderedStringMapEntry V)) : List String :=
  d.map Prod.fst

/-- The list `ks` enumerates the keys of the store in strictly increasing stamp order. -/
def Ordered (d : List (String × orderedStringMapEntry V)) (ks : List String) : Prop :=
  (keysOf d).Nodup ∧ ks.Perm (keysOf d) ∧ (ks.map (stampOf d)).Pairwise (fun a b => a < b)

/-- The value stored at a key, if the key is present. -/
def valueAt (d : List (String × orderedStringMapEntry V)) (k : String) : Option (Option V) :=
  (mapLookup k d).map (fun e => e.value)

/-- The effect of the loop of `Reindex` while the counter does not overflow: the keys of
`ks` receive, in turn, the stamps `L + 1`, `L + 2`, ... -/
def renumber : List String → Nat → List (String × orderedStringMapEntry V) →
    List (String × orderedStringMapEntry V)
  | [], _, d => d
  | k :: ks, L, d => renumber ks (L + 1) (mapUpdate k (fun e => { e with index := L + 1 }) d)

/-- The invariant of the reachable states: keys are unique, stamps are unique, every stamp
lies between 1 and the counter, the counter is a `uint64`, and the store holds fewer than
`2 ^ 64 - 1` entries. -/
structure Inv (s : OrderedStringMap V) : Prop where
  ordered : Ordered s.data (getKeys false s)
  stamp_pos : ∀ a ∈ keysOf s.data, 1 ≤ stampOf s.data a
  stamp_le : ∀ a ∈ keysOf s.data, stampOf s.data a ≤ s.lastIndex
  last_le : s.lastIndex ≤ maxUint64
  size_lt : s.data.length < maxUint64

/-- What a call of `getIndex` on `o` guarantees about the stamp `i` it returns and the
state `o1` it leaves: the counter is `i`, keys and values are those of `o`, every stamp
lies in `[1, i)`, and the order of the keys is that of `o`. -/
structure IndexPost (o : OrderedStringMap V) (i : Nat) (o1 : OrderedStringMap V) : Prop where
  last : o1.lastIndex = i
  pos : 1 ≤ i
  le : i ≤ maxUint64
  keys : keysOf o1.data = keysOf o.data
  values : ∀ a, valueAt o1.data a = valueAt o.data a
  stamp_pos : ∀ a ∈ keysOf o.data, 1 ≤ stampOf o1.data a
  stamp_lt : ∀ a ∈ keysOf o.data, stampOf o1.data a < i
  ordered : Ordered o1.data (getKeys false o)

/-- The stamps of the entries of the keys returned by `GetKeys`, read in the returned
order. -/
def stampsInOrder (o : OrderedStringMap V) : List Nat :=
  (GetKeys o).map (stampOf o.data)

/-- A run of `Add` calls, first call first. -/
def applyAdds (fuel : Nat) :
    List (String × Option V) → OrderedStringMap V → Option (OrderedStringMap V)
  | [], o => some o
  | c :: cs, o =>
    match Add fuel c.1 c.2 o with
    | none => none
    | some o1 => applyAdds fuel cs o1

/-- Specification side of the history characterisation: a list of keys with duplicates
removed, keeping only the last occurrence of each key. -/
def specKeepLast : List String → List String
  | [] => []
  | k :: ks => if k ∈ ks then specKeepLast ks else k :: specKeepLast ks

/-- Specification side of the history characterisation: the value of the last call for the
key `k`, if there is one. -/
def specLastValue (k : String) : List (String × Option V) → Option (Option V)
  | [] => none
  | c :: cs =>
    match specLastValue k cs with
    | some v => some v
    | none => if c.1 = k then some c.2 else none

/-- The state after `Add("x", 1); Add("y", 2)` on a new map. -/
def exampleMap : OrderedStringMap Nat :=
  { data := [("x", { value := some 1, index := 1 }), ("y", { value := some 2, index := 2 })],
    lastIndex := 2 }

/-- The state after `Add("x", 1); Add("y", 2); Add("x", 3)` on a new map: the store
enumerates `x` before `y`, the stamps order `y` before `x`. -/
def exampleMap2 : OrderedStringMap Nat :=
  { data := [("x", { value := some 3, index := 3 }), ("y", { value := some 2, index := 2 })],
    lastIndex := 3 }

/-- A state whose counter is `math.MaxUint64`. -/
def exampleMapFull : OrderedStringMap Nat :=
  { data := [("x", { value := some 3, index := 3 }), ("y", { value := some 2, index := 2 })],
    lastIndex := maxUint64 }

/-- The state after `Add("x",1); Add("y",2); Add("x",3)` and then `n - 3` calls
`Add("z", 0)`: the counter and the stamp of `z` are `n`. -/
def exampleCounting (n : Nat) : OrderedStringMap Nat :=
  { data := [("x", { value := some 3, index := 3 }), ("y", { value := some 2, index := 2 }),
             ("z", { value := some 0, index := n })],
    lastIndex := n }

/-- A call of one of the methods of the map. -/
inductive Op (V : Type) where
  | add (key : String) (value : Option V)
  | del (key : String)
  | reindex
  | get (key : String)
  | getKeys
  | len

/-- What a call returns to its caller. -/
inductive Observation (V : Type) where
  | nothing
  | got (v : Option V) (e : Bool)
  | keys (ks : List String)
  | length (n : Nat)

/-- One call on the map: the value it returns and the state it leaves. -/
def runOp (fuel : Nat) (op : Op V) (o : OrderedStringMap V) :
    Option (Observation V × OrderedStringMap V) :=
  match op with
  | Op.add key value => (Add fuel key value o).map (fun o1 => (Observation.nothing, o1))
  | Op.del key => some (Observation.nothing, Del key o)
  | Op.reindex => (Reindex fuel o).map (fun o1 => (Observation.nothing, o1))
  | Op.get key => some (Observation.got (Get key o).1 (Get key o).2, o)
  | Op.getKeys => some (Observation.keys (GetKeys o), o)
  | Op.len => some (Observation.length (Len o), o)

/-- A sequence of calls on the map: the values they return, in order. -/
def runOps (fuel : Nat) : List (Op V) → OrderedStringMap V → Option (List (Observation V))
  | [], _ => some []
  | op :: ops, o =>
    match runOp fuel op o with
    | none => none
    | some (obs, o1) => (runOps fuel ops o1).map (fun rest => obs :: rest)

/-- Library model (`encoding/json` is outside the repository): what the two `MarshalJSON`
methods need of it.  `marshalValue` is `json.Marshal` on a stored `interface{}` value,
`marshalerError` builds the `*json.MarshalerError` in which the library wraps an error
returned by a `MarshalJSON` method, `quote` writes an object member name. -/
structure JsonLibrary (V E : Type) where
  marshalValue : Option V → Except E String
  marshalerError : E → E
  quote : String → String

/-- The method `MarshalJSON` of `orderedStringMapEntry`: `json.Marshal(osm.value)`. -/
def orderedStringMapEntry.MarshalJSON {E : Type} (lib : JsonLibrary V E)
    (osm : orderedStringMapEntry V) : Except E String :=
  lib.marshalValue osm.value

/-- Library model: the members that `json.Marshal` writes for the entries of a
`map[string]*orderedStringMapEntry`, in the given order.  Each element is encoded by its
`MarshalJSON` method; an error of that method is wrapped and ends the encoding. -/
def jsonMembers {E : Type} (lib : JsonLibrary V E) :
    List (String × orderedStringMapEntry V) → Except E (List (String × String))
  | [] => Except.ok []
  | p :: rest =>
    match p.2.MarshalJSON lib with
    | Except.error err => Except.error (lib.marshalerError err)
    | Except.ok t =>
      match jsonMembers lib rest with
      | Except.error err => Except.error err
      | Except.ok ms => Except.ok ((p.1, t) :: ms)

/-- Library model: `json.Marshal` writes the members of a map sorted by key (keys are
compared character by character). -/
def jsonSortKeys (d : List (String × orderedStringMapEntry V)) :
    List (String × orderedStringMapEntry V) :=
  d.insertionSort (fun a b => ¬ b.1.data < a.1.data)

/-- Library model: the text of a JSON object with the given members. -/
def jsonObject {E : Type} (lib : JsonLibrary V E) (ms : List (String × String)) : String :=
  "\x7b" ++ ",".intercalate (ms.map (fun m => lib.quote m.1 ++ ":" ++ m.2)) ++ "\x7d"

/-- The members of the object that `MarshalJSON` writes: `json.Marshal(o.data)` before the
text is put together. -/
def marshalMembers {E : Type} (lib : JsonLibrary V E) (o : OrderedStringMap V) :
    Except E (List (String × String)) :=
  jsonMembers lib (jsonSortKeys o.data)

/-- The method `MarshalJSON` of `OrderedStringMap`: `json.Marshal(o.data)`. -/
def OrderedStringMap.MarshalJSON {E : Type} (lib : JsonLibrary V E) (o : OrderedStringMap V) :
    Except E String :=
  match marshalMembers lib o with
  | Except.error err => Except.error err
  | Except.ok ms => Except.ok (jsonObject lib ms)

/-- Example values for the serialization scenario: a number, a string, and a channel
(which `encoding/json` refuses to encode). -/
inductive GoValue where
  | int (n : Nat)
  | str (s : String)
  | chan
deriving DecidableEq

/-- Example errors: the library's `UnsupportedTypeError` and its `MarshalerError`
wrapper. -/
inductive GoError where
  | unsupportedType
  | marshalerError (inner : GoError)
deriving DecidableEq

/-- Example library: numbers in decimal, strings between quotes, `null` for nil, an
`UnsupportedTypeError` for a channel. -/
def exampleJson : JsonLibrary GoValue GoError :=
  { marshalValue := fun v =>
      match v with
      | none => Except.ok "null"
      | some (GoValue.int n) => Except.ok (toString n)
      | some (GoValue.str s) => Except.ok ("\"" ++ s ++ "\"")
      | some GoValue.chan => Except.error GoError.unsupportedType
    marshalerError := GoError.marshalerError
    quote := fun k => "\"" ++ k ++ "\"" }

/-- The map holding `{"a": 1, "b": "x"}`, enumerated `b` first. -/
def exampleJsonMap : OrderedStringMap GoValue :=
  { data := [("b", { value := some (GoValue.str "x"), index := 2 }),
             ("a", { value := some (GoValue.int 1), index := 1 })],
    lastIndex := 2 }

/-- A map holding a value that cannot be encoded. -/
def exampleJsonBad : OrderedStringMap GoValue :=
  { data := [("a", { value := some (GoValue.int 1), index := 1 }),
             ("c", { value := some GoValue.chan, index := 2 })],
    lastIndex := 2 }

/-- What a call chain sees of the `sync.RWMutex`: whether the exclusive lock is held, and
the number of holders of the shared lock. -/
structure RWMutex where
  writer : Bool
  readers : Nat
deriving DecidableEq

/-- One access to the store or to the counter, with the state of the lock at that moment. -/
structure Access where
  write : Bool
  lock : RWMutex
deriving DecidableEq

/-- The struct `OrderedStringMap` with its lock, and the accesses made so far (a ghost
field). -/
structure Guarded (V : Type) where
  map : OrderedStringMap V
  lock : RWMutex
  log : List Access
deriving DecidableEq

/-- How a call ends: it returns, it waits for a lock that is held (for ever, when the
holder is its own call chain), it dereferences a nil pointer, or the fuel of the model
ran out. -/
inductive Outcome (α : Type) where
  | returned (a : α)
  | blocked
  | panicked
  | outOfFuel
deriving DecidableEq

/-- Sequencing of calls: the second runs when the first has returned. -/
def Outcome.bind {α β : Type} (x : Outcome α) (f : α → Outcome β) : Outcome β :=
  match x with
  | Outcome.returned a => f a
  | Outcome.blocked => Outcome.blocked
  | Outcome.panicked => Outcome.panicked
  | Outcome.outOfFuel => Outcome.outOfFuel

/-- The call `lock.Lock()`: granted when nobody holds the lock, `none` when it has to wait. -/
def RWMutex.Lock (m : RWMutex) : Option RWMutex :=
  if m.writer = false ∧ m.readers = 0 then some { writer := true, readers := 0 } else none

/-- The call `lock.Unlock()`. -/
def RWMutex.Unlock (m : RWMutex) : RWMutex :=
  { m with writer := false }

/-- The call `lock.RLock()`: granted unless the exclusive lock is held. -/
def RWMutex.RLock (m : RWMutex) : Option RWMutex :=
  if m.writer = true then none else some { m with readers := m.readers + 1 }

/-- The call `lock.RUnlock()`. -/
def RWMutex.RUnlock (m : RWMutex) : RWMutex :=
  { m with readers := m.readers - 1 }

/-- Record one access to the store or the counter under the current state of the lock. -/
def Guarded.access (write : Bool) (g : Guarded V) : Guarded V :=
  { g with log := g.log ++ [{ write := write, lock := g.lock }] }

/-- An access is guarded when the exclusive lock is held, or, for a read, the shared one. -/
def Access.guarded (a : Access) : Bool :=
  if a.write = true then a.lock.writer else (a.lock.writer || decide (0 < a.lock.readers))

/-- The locking discipline on a log: every access is guarded. -/
def disciplined (log : List Access) : Bool :=
  log.all Access.guarded

/-- The method `getKeys` with its lock. -/
def WithLock.getKeys (locking : Bool) (g : Guarded V) : Outcome (List String × Guarded V) :=
  if locking = true then
    match g.lock.RLock with
    | none => Outcome.blocked
    | some m =>
      Outcome.returned (OrderedMap.getKeys locking g.map,
        { Guarded.access false { g with lock := m } with lock := m.RUnlock })
  else
    Outcome.returned (OrderedMap.getKeys locking g.map, Guarded.access false g)

/-- The loop of `Reindex` with the lock state, over the method `getIndex` it calls. -/
def WithLock.reindexLoop (getIndex : Guarded V → Outcome (Nat × Guarded V)) :
    List String → Guarded V → Outcome (Guarded V)
  | [], g => Outcome.returned g
  | k :: ks, g =>
    match getIndex g with
    | Outcome.returned (i, g1) =>
      match mapLookup k g1.map.data with
      | none => Outcome.panicked
      | some _ =>
        WithLock.reindexLoop getIndex ks
          (Guarded.access true
            { g1 with map :=
              { g1.map with data := mapUpdate k (fun e => { e with index := i }) g1.map.data } })
    | Outcome.blocked => Outcome.blocked
    | Outcome.panicked => Outcome.panicked
    | Outcome.outOfFuel => Outcome.outOfFuel

/-- The body of the method `Reindex` with its lock, over the method `getIndex` it calls:
`o.lock.Lock()`, `o.getKeys(false)`, the loop, and the deferred `o.lock.Unlock()`. -/
def WithLock.reindexWith (getIndex : Guarded V → Outcome (Nat × Guarded V))
    (g : Guarded V) : Outcome (Guarded V) :=
  match g.lock.Lock with
  | none => Outcome.blocked
  | some m =>
    (WithLock.getKeys false { g with lock := m }).bind (fun r =>
      (WithLock.reindexLoop getIndex r.1 r.2).bind (fun g2 =>
        Outcome.returned { g2 with lock := g2.lock.Unlock }))

/-- The last two statements of `getIndex` with the lock state. -/
def WithLock.increment (g : Guarded V) : Nat × Guarded V :=
  ((OrderedMap.increment g.map).1, Guarded.access true { g with map := (OrderedMap.increment g.map).2 })

/-- The method `getIndex` with the lock state: it takes no lock itself, and at
`math.MaxUint64` it calls the method `Reindex`, which does. -/
def WithLock.getIndex : Nat → Guarded V → Outcome (Nat × Guarded V)
  | 0, g =>
    if g.map.lastIndex = maxUint64 then Outcome.outOfFuel
    else Outcome.returned (WithLock.increment (Guarded.access false g))
  | fuel + 1, g =>
    if g.map.lastIndex = maxUint64 then
      (WithLock.reindexWith (WithLock.getIndex fuel)
        (Guarded.access true
          { Guarded.access false g with map := { g.map with lastIndex := 0 } })).bind
        (fun g1 => Outcome.returned (WithLock.increment g1))
    else Outcome.returned (WithLock.increment (Guarded.access false g))

/-- The method `Reindex` with its lock. -/
def WithLock.Reindex (fuel : Nat) (g : Guarded V) : Outcome (Guarded V) :=
  WithLock.reindexWith (WithLock.getIndex fuel) g

/-- The method `Add` with its lock: `o.lock.Lock()`, the body, and the deferred
`o.lock.Unlock()`. -/
def WithLock.Add (fuel : Nat) (key : String) (value : Option V) (g : Guarded V) :
    Outcome (Guarded V) :=
  match g.lock.Lock with
  | none => Outcome.blocked
  | some m =>
    match mapLookup key g.map.data with
    | some _ =>
      (WithLock.getIndex fuel
        (Guarded.access true
          { Guarded.access false { g with lock := m } with map :=
            { g.map with data := mapUpdate key (fun e => { e with value := value }) g.map.data } })).bind
        (fun r =>
          Outcome.returned
            { Guarded.access true
                { r.2 with map :=
                  { r.2.map with
                    data := mapUpdate key (fun e => { e with index := r.1 }) r.2.map.data } }
              with lock := r.2.lock.Unlock })
    | none =>
      (WithLock.getIndex fuel (Guarded.access false { g with lock := m })).bind
        (fun r =>
          Outcome.returned
            { Guarded.access true
                { r.2 with map :=
                  { r.2.map with
                    data := mapInsert key { value := value, index := r.1 } r.2.map.data } }
              with lock := r.2.lock.Unlock })

/-- The method `Del` with its lock. -/
def WithLock.Del (key : String) (g : Guarded V) : Outcome (Guarded V) :=
  match g.lock.Lock with
  | none => Outcome.blocked
  | some m =>
    Outcome.returned
      { Guarded.access true { g with lock := m, map := OrderedMap.Del key g.map } with lock := m.Unlock }

/-- The method `Get` with its lock. -/
def WithLock.Get (key : String) (g : Guarded V) : Outcome ((Option V × Bool) × Guarded V) :=
  match g.lock.RLock with
  | none => Outcome.blocked
  | some m =>
    Outcome.returned (OrderedMap.Get key g.map,
      { Guarded.access false { g with lock := m } with lock := m.RUnlock })

/-- The method `GetKeys` with its lock. -/
def WithLock.GetKeys (g : Guarded V) : Outcome (List String × Guarded V) :=
  WithLock.getKeys true g

/-- The method `Len`: it reads `len(o.data)` and takes no lock. -/
def WithLock.Len (g : Guarded V) : Outcome (Nat × Guarded V) :=
  Outcome.returned (OrderedMap.Len g.map, Guarded.access false g)

/-- The method `MarshalJSON` of the map: it hands `o.data` to `json.Marshal` and takes no
lock. -/
def WithLock.MarshalJSON {E : Type} (lib : JsonLibrary V E) (g : Guarded V) :
    Outcome (Except E String × Guarded V) :=
  Outcome.returned (OrderedStringMap.MarshalJSON lib g.map, Guarded.access false g)

/-- A map with its lock free and no access made yet. -/
def unlocked (o : OrderedStringMap V) : Guarded V :=
  { map := o, lock := { writer := false, readers := 0 }, log := [] }

/-- The accesses recorded by a call that returned (none for a call that did not). -/
def accessesOf {α : Type} (f : α → Guarded V) (x : Outcome α) : List Access :=
  match x with
  | Outcome.returned a => (f a).log
  | Outcome.blocked => []
  | Outcome.panicked => []
  | Outcome.outOfFuel => []

/-- A state whose counter is one below `math.MaxUint64`: the second `getIndex` of a
`Reindex` finds the counter full. -/
def exampleMapNearFull : OrderedStringMap Nat :=
  { data := [("x", { value := some 3, index := 3 }), ("y", { value := some 2, index := 2 })],
    lastIndex := maxUint64 - 1 }

end Definitions

section MapLemmas

variable {V : Type}

theorem mapLookup_cons (k : String) (p : String × orderedStringMapEntry V)
    (rest : List (String × orderedStringMapEntry V)) :
    mapLookup k (p :: rest) = if p.1 = k then some p.2 else mapLookup k rest := rfl

theorem mapUpdate_cons (k : String) (f : orderedStringMapEntry V → orderedStringMapEntry V)
    (p : String × orderedStringMapEntry V) (rest : List (String × orderedStringMapEntry V)) :
    mapUpdate k f (p :: rest) = (if p.1 = k then (p.1, f p.2) else p) :: mapUpdate k f rest := rfl

theorem mapDelete_cons (k : String) (p : String × orderedStringMapEntry V)
    (rest : List (String × orderedStringMapEntry V)) :
    mapDelete k (p :: rest) = if p.1 = k then mapDelete k rest else p :: mapDelete k rest := by
  unfold mapDelete
  by_cases h : p.1 = k <;> simp [List.filter_cons, h]

theorem mapLookup_eq_none_iff (k : String) (d : List (String × orderedStringMapEntry V)) :
    mapLookup k d = none ↔ k ∉ keysOf d := by
  induction d with
  | nil => simp [mapLookup, keysOf]
  | cons p rest ih =>
    rw [mapLookup_cons]
    by_cases h : p.1 = k
    · subst h
      simp [keysOf]
    · simp only [h, if_false, ih, keysOf, List.map_cons, List.mem_cons, not_or]
      exact ⟨fun hr => ⟨fun hk => h hk.symm, hr⟩, fun hr => hr.2⟩

theorem mapLookup_isSome_iff (k : String) (d : List (String × orderedStringMapEntry V)) :
    (∃ e, mapLookup k d = some e) ↔ k ∈ keysOf d := by
  have h := mapLookup_eq_none_iff k d
  cases hl : mapLookup k d with
  | none => simp [h.mp hl]
  | some e =>
    have : k ∈ keysOf d := by
      by_contra hn
      rw [h.mpr hn] at hl
      cases hl
    simp [this]

theorem mapLookup_of_mem {d : List (String × orderedStringMapEntry V)}
    (hn : (keysOf d).Nodup) {p : String × orderedStringMapEntry V} (hp : p ∈ d) :
    mapLookup p.1 d = some p.2 := by
  induction d with
  | nil => cases hp
  | cons q rest ih =>
    simp only [keysOf, List.map_cons, List.nodup_cons] at hn
    unfold mapLookup
    rcases List.mem_cons.mp hp with rfl | hmem
    · simp
    · have hne : q.1 ≠ p.1 := by
        intro heq
        exact hn.1 (heq ▸ List.mem_map_of_mem Prod.fst hmem)
      simp only [hne, if_false]
      exact ih hn.2 hmem

theorem mem_of_mapLookup {k : String} {d : List (String × orderedStringMapEntry V)}
    {e : orderedStringMapEntry V} (h : mapLookup k d = some e) : (k, e) ∈ d := by
  induction d with
  | nil => cases h
  | cons q rest ih =>
    unfold mapLookup at h
    by_cases hq : q.1 = k
    · simp only [hq, if_true, Option.some.injEq] at h
      have : q = (k, e) := by
        cases q
        simp_all
      simp [this]
    · simp only [hq, if_false] at h
      exact List.mem_cons_of_mem _ (ih h)

theorem keysOf_mapUpdate (k : String) (f : orderedStringMapEntry V → orderedStringMapEntry V)
    (d : List (String × orderedStringMapEntry V)) : keysOf (mapUpdate k f d) = keysOf d := by
  unfold keysOf mapUpdate
  rw [List.map_map]
  apply List.map_congr_left
  intro p _
  by_cases h : p.1 = k <;> simp [h]

theorem keysOf_mapInsert (k : String) (e : orderedStringMapEntry V)
    (d : List (String × orderedStringMapEntry V)) : keysOf (mapInsert k e d) = keysOf d ++ [k] := by
  simp [keysOf, mapInsert]

theorem keysOf_mapDelete (k : String) (d : List (String × orderedStringMapEntry V)) :
    keysOf (mapDelete k d) = (keysOf d).filter (fun a => decide (a ≠ k)) := by
  unfold keysOf mapDelete
  rw [List.filter_map]
  rfl

theorem mapLookup_mapUpdate_self (k : String)
    (f : orderedStringMapEntry V → orderedStringMapEntry V)
    (d : List (String × orderedStringMapEntry V)) :
    mapLookup k (mapUpdate k f d) = (mapLookup k d).map f := by
  induction d with
  | nil => rfl
  | cons p rest ih =>
    rw [mapUpdate_cons, mapLookup_cons, mapLookup_cons]
    by_cases h : p.1 = k
    · simp only [h, if_true, Option.map_some']
    · simp only [h, if_false, ih]

theorem mapLookup_mapUpdate_ne {k a : String} (h : a ≠ k)
    (f : orderedStringMapEntry V → orderedStringMapEntry V)
    (d : List (String × orderedStringMapEntry V)) :
    mapLookup a (mapUpdate k f d) = mapLookup a d := by
  induction d with
  | nil => rfl
  | cons p rest ih =>
    rw [mapUpdate_cons, mapLookup_cons, mapLookup_cons, ih]
    by_cases hp : p.1 = k
    · have hpa : ¬ p.1 = a := fun hpa => h (hpa ▸ hp)
      simp only [hp, if_true]
      have hka : ¬ k = a := fun hka => h hka.symm
      simp only [hka, if_false, hp ▸ hpa]
    · simp only [hp, if_false]

theorem mapLookup_mapInsert_self {k : String} (e : orderedStringMapEntry V)
    {d : List (String × orderedStringMapEntry V)} (h : mapLookup k d = none) :
    mapLookup k (mapInsert k e d) = some e := by
  induction d with
  | nil => simp [mapInsert, mapLookup]
  | cons p rest ih =>
    unfold mapLookup at h
    by_cases hp : p.1 = k
    · simp [hp] at h
    · simp only [hp, if_false] at h
      have := ih h
      unfold mapInsert at this ⊢
      simp [mapLookup, hp, this]

theorem mapLookup_mapInsert_ne {k a : String} (h : a ≠ k) (e : orderedStringMapEntry V)
    (d : List (String × orderedStringMapEntry V)) :
    mapLookup a (mapInsert k e d) = mapLookup a d := by
  induction d with
  | nil => simp [mapInsert, mapLookup, Ne.symm h]
  | cons p rest ih =>
    unfold mapInsert at ih ⊢
    by_cases hp : p.1 = a
    · simp [mapLookup, hp]
    · simp [mapLookup, hp, ih]

theorem mapLookup_mapDelete_self (k : String) (d : List (String × orderedStringMapEntry V)) :
    mapLookup k (mapDelete k d) = none := by
  rw [mapLookup_eq_none_iff, keysOf_mapDelete]
  simp

theorem mapLookup_mapDelete_ne {k a : String} (h : a ≠ k)
    (d : List (String × orderedStringMapEntry V)) :
    mapLookup a (mapDelete k d) = mapLookup a d := by
  induction d with
  | nil => rfl
  | cons p rest ih =>
    rw [mapDelete_cons, mapLookup_cons]
    by_cases hp : p.1 = k
    · have hpa : ¬ p.1 = a := fun hpa => h (hpa ▸ hp)
      rw [if_pos hp, if_neg hpa, ih]
    · rw [if_neg hp, mapLookup_cons, ih]

theorem mapDelete_of_not_mem {k : String} {d : List (String × orderedStringMapEntry V)}
    (h : k ∉ keysOf d) : mapDelete k d = d := by
  unfold mapDelete
  rw [List.filter_eq_self]
  intro p hp
  have : p.1 ≠ k := fun heq => h (heq ▸ List.mem_map_of_mem Prod.fst hp)
  simpa using this

end MapLemmas

section SortLemmas

variable {V : Type}

instance lessTotal :
    IsTotal (String × orderedStringMapEntry V) (fun a b => less b a = false) :=
  ⟨fun a b => by
    simp only [less, decide_eq_false_iff_not, not_lt]
    exact Nat.le_total _ _⟩

instance lessTrans :
    IsTrans (String × orderedStringMapEntry V) (fun a b => less b a = false) :=
  ⟨fun a b c => by
    simp only [less, decide_eq_false_iff_not, not_lt]
    exact Nat.le_trans⟩

theorem sortSlice_perm (d : List (String × orderedStringMapEntry V)) : (sortSlice d).Perm d :=
  List.perm_insertionSort _ d

theorem sortSlice_sorted (d : List (String × orderedStringMapEntry V)) :
    (sortSlice d).Pairwise (fun a b => a.2.index ≤ b.2.index) := by
  have h := List.sorted_insertionSort (fun a b : String × orderedStringMapEntry V => less b a = false) d
  refine List.Pairwise.imp ?_ h
  intro a b hab
  simpa [less] using hab

theorem stampOf_of_mem {d : List (String × orderedStringMapEntry V)}
    (hn : (keysOf d).Nodup) {p : String × orderedStringMapEntry V} (hp : p ∈ d) :
    stampOf d p.1 = p.2.index := by
  unfold stampOf
  rw [mapLookup_of_mem hn hp]

theorem keysOf_sortSlice_perm (d : List (String × orderedStringMapEntry V)) :
    ((sortSlice d).map Prod.fst).Perm (keysOf d) :=
  (sortSlice_perm d).map Prod.fst

theorem stamps_sortSlice {d : List (String × orderedStringMapEntry V)}
    (hn : (keysOf d).Nodup) :
    ((sortSlice d).map Prod.fst).map (stampOf d) = (sortSlice d).map (fun p => p.2.index) := by
  rw [List.map_map]
  apply List.map_congr_left
  intro p hp
  exact stampOf_of_mem hn ((sortSlice_perm d).subset hp)

theorem sortSlice_keys_le {d : List (String × orderedStringMapEntry V)}
    (hn : (keysOf d).Nodup) :
    ((sortSlice d).map Prod.fst).Pairwise (fun a b => stampOf d a ≤ stampOf d b) := by
  have h := sortSlice_sorted d
  have h2 : ((sortSlice d).map (fun p => p.2.index)).Pairwise (fun a b => a ≤ b) :=
    List.pairwise_map.mpr h
  rw [← stamps_sortSlice hn] at h2
  exact List.pairwise_map.mp h2

/-- A listing of the keys in strictly increasing stamp order is what `getKeys` returns. -/
theorem sortSlice_keys_of_ordered {d : List (String × orderedStringMapEntry V)}
    {ks : List String} (h : Ordered d ks) : (sortSlice d).map Prod.fst = ks := by
  obtain ⟨hn, hperm, hlt⟩ := h
  have hlt2 : ks.Pairwise (fun a b => stampOf d a < stampOf d b) := List.pairwise_map.mp hlt
  have hne : ks.Pairwise (fun a b => stampOf d a ≠ stampOf d b) :=
    hlt2.imp (fun hab => Nat.ne_of_lt hab)
  have hperm2 : ((sortSlice d).map Prod.fst).Perm ks := (keysOf_sortSlice_perm d).trans hperm.symm
  have hne2 : ((sortSlice d).map Prod.fst).Pairwise (fun a b => stampOf d a ≠ stampOf d b) :=
    (hperm2.pairwise_iff (fun {a b} hab => Ne.symm hab)).mpr hne
  have hlt3 : ((sortSlice d).map Prod.fst).Pairwise (fun a b => stampOf d a < stampOf d b) :=
    ((sortSlice_keys_le hn).and hne2).imp (fun hab => Nat.lt_of_le_of_ne hab.1 hab.2)
  haveI : IsAntisymm String (fun a b => stampOf d a < stampOf d b) :=
    ⟨fun a b h1 h2 => absurd h1 (Nat.lt_asymm h2)⟩
  exact List.eq_of_perm_of_sorted hperm2 hlt3 hlt2

/-- With unique keys and unique stamps, `getKeys` lists the keys in strictly increasing
stamp order. -/
theorem ordered_sortSlice {d : List (String × orderedStringMapEntry V)}
    (hn : (keysOf d).Nodup) (hi : (d.map (fun p => p.2.index)).Nodup) :
    Ordered d ((sortSlice d).map Prod.fst) := by
  refine ⟨hn, keysOf_sortSlice_perm d, ?_⟩
  rw [stamps_sortSlice hn]
  have hle : ((sortSlice d).map (fun p => p.2.index)).Pairwise (fun a b => a ≤ b) :=
    List.pairwise_map.mpr (sortSlice_sorted d)
  have hne : ((sortSlice d).map (fun p => p.2.index)).Nodup :=
    (((sortSlice_perm d).map (fun p => p.2.index)).nodup_iff).mpr hi
  exact (hle.and hne).imp (fun hab => Nat.lt_of_le_of_ne hab.1 hab.2)

theorem Ordered.stamps_nodup {d : List (String × orderedStringMapEntry V)} {ks : List String}
    (h : Ordered d ks) : (d.map (fun p => p.2.index)).Nodup := by
  obtain ⟨hn, hperm, hlt⟩ := h
  have h1 : (ks.map (stampOf d)).Nodup := hlt.imp (fun hab => Nat.ne_of_lt hab)
  have h2 : ((keysOf d).map (stampOf d)).Nodup := ((hperm.map (stampOf d)).nodup_iff).mp h1
  have h3 : (keysOf d).map (stampOf d) = d.map (fun p => p.2.index) := by
    unfold keysOf
    rw [List.map_map]
    apply List.map_congr_left
    intro p hp
    exact stampOf_of_mem hn hp
  rw [← h3]
  exact h2

end SortLemmas

section OrderLemmas

variable {V : Type}

theorem perm_filter_ne_append {l : List String} (hn : l.Nodup) {k : String} (hk : k ∈ l) :
    l.Perm (l.filter (fun a => decide (a ≠ k)) ++ [k]) := by
  have h1 : l.Perm (k :: l.erase k) := List.perm_cons_erase hk
  have h2 : l.erase k = l.filter (fun a => decide (a ≠ k)) := by
    rw [hn.erase_eq_filter]
    apply List.filter_congr
    intro a _
    by_cases hak : a = k <;> simp [hak]
  rw [h2] at h1
  exact h1.trans (List.perm_append_singleton k _).symm

theorem filter_ne_of_not_mem {l : List String} {k : String} (hk : k ∉ l) :
    l.filter (fun a => decide (a ≠ k)) = l := by
  rw [List.filter_eq_self]
  intro a ha
  have : a ≠ k := fun h => hk (h ▸ ha)
  simpa using this

theorem Ordered.congr {d d1 : List (String × orderedStringMapEntry V)} {ks : List String}
    (h : Ordered d ks) (hk : keysOf d1 = keysOf d) (hs : ∀ a, stampOf d1 a = stampOf d a) :
    Ordered d1 ks := by
  obtain ⟨hn, hperm, hlt⟩ := h
  refine ⟨hk ▸ hn, hk ▸ hperm, ?_⟩
  have : ks.map (stampOf d1) = ks.map (stampOf d) := List.map_congr_left (fun a _ => hs a)
  rw [this]
  exact hlt

/-- Giving the key `k` a stamp above all the others moves it to the end of the order and
leaves the other keys in their relative order. -/
theorem Ordered.touch {d d1 : List (String × orderedStringMapEntry V)} {ks : List String}
    {k : String} (h : Ordered d ks)
    (hk : (keysOf d1).Perm ((keysOf d).filter (fun a => decide (a ≠ k)) ++ [k]))
    (hs : ∀ a, a ≠ k → stampOf d1 a = stampOf d a)
    (hlt : ∀ a ∈ keysOf d, a ≠ k → stampOf d a < stampOf d1 k) :
    Ordered d1 (ks.filter (fun a => decide (a ≠ k)) ++ [k]) := by
  obtain ⟨hn, hperm, hsorted⟩ := h
  have hnd : ((keysOf d).filter (fun a => decide (a ≠ k)) ++ [k]).Nodup := by
    rw [List.nodup_append]
    refine ⟨hn.filter _, List.nodup_singleton k, ?_⟩
    intro a ha hak
    rw [List.mem_singleton] at hak
    have := (List.mem_filter.mp ha).2
    simp [hak] at this
  refine ⟨(hk.nodup_iff).mpr hnd, ?_, ?_⟩
  · exact ((hperm.filter _).append_right [k]).trans hk.symm
  · rw [List.map_append, List.pairwise_append]
    refine ⟨?_, by simp, ?_⟩
    · have h1 : (ks.filter (fun a => decide (a ≠ k))).map (stampOf d1) =
          (ks.filter (fun a => decide (a ≠ k))).map (stampOf d) := by
        apply List.map_congr_left
        intro a ha
        have := (List.mem_filter.mp ha).2
        exact hs a (by simpa using this)
      rw [h1]
      exact hsorted.sublist ((List.filter_sublist ks).map (stampOf d))
    · intro x hx y hy
      rw [List.map_singleton, List.mem_singleton] at hy
      obtain ⟨a, ha, rfl⟩ := List.mem_map.mp hx
      have ha2 := List.mem_filter.mp ha
      have hak : a ≠ k := by simpa using ha2.2
      rw [hy, hs a hak]
      exact hlt a (hperm.subset ha2.1) hak

theorem stampOf_mapUpdate_index_self {k : String} {i : Nat}
    {d : List (String × orderedStringMapEntry V)} (hk : k ∈ keysOf d) :
    stampOf (mapUpdate k (fun e => { e with index := i }) d) k = i := by
  obtain ⟨e, he⟩ := (mapLookup_isSome_iff k d).mpr hk
  unfold stampOf
  rw [mapLookup_mapUpdate_self, he]
  rfl

theorem stampOf_mapUpdate_ne {k a : String} (h : a ≠ k)
    (f : orderedStringMapEntry V → orderedStringMapEntry V)
    (d : List (String × orderedStringMapEntry V)) :
    stampOf (mapUpdate k f d) a = stampOf d a := by
  unfold stampOf
  rw [mapLookup_mapUpdate_ne h]

theorem stampOf_mapUpdate_value (k : String) (v : Option V)
    (d : List (String × orderedStringMapEntry V)) (a : String) :
    stampOf (mapUpdate k (fun e => { e with value := v }) d) a = stampOf d a := by
  by_cases h : a = k
  · subst h
    unfold stampOf
    rw [mapLookup_mapUpdate_self]
    cases mapLookup a d <;> rfl
  · exact stampOf_mapUpdate_ne h _ d

theorem valueAt_mapUpdate_index (k : String) (i : Nat)
    (d : List (String × orderedStringMapEntry V)) (a : String) :
    valueAt (mapUpdate k (fun e => { e with index := i }) d) a = valueAt d a := by
  by_cases h : a = k
  · subst h
    unfold valueAt
    rw [mapLookup_mapUpdate_self]
    cases mapLookup a d <;> rfl
  · unfold valueAt
    rw [mapLookup_mapUpdate_ne h]

theorem Get_eq_valueAt (k : String) (o : OrderedStringMap V) :
    Get k o = match valueAt o.data k with
      | some v => (v, true)
      | none => (none, false) := by
  unfold Get valueAt
  cases mapLookup k o.data <;> rfl

theorem length_eq_of_keysOf_eq {d d1 : List (String × orderedStringMapEntry V)}
    (h : keysOf d1 = keysOf d) : d1.length = d.length := by
  have := congrArg List.length h
  simpa [keysOf] using this

end OrderLemmas

section RenumberLemmas

variable {V : Type}

theorem keysOf_renumber (ks : List String) (L : Nat)
    (d : List (String × orderedStringMapEntry V)) : keysOf (renumber ks L d) = keysOf d := by
  induction ks generalizing L d with
  | nil => rfl
  | cons k ks ih =>
    unfold renumber
    rw [ih, keysOf_mapUpdate]

theorem valueAt_renumber (ks : List String) (L : Nat)
    (d : List (String × orderedStringMapEntry V)) (a : String) :
    valueAt (renumber ks L d) a = valueAt d a := by
  induction ks generalizing L d with
  | nil => rfl
  | cons k ks ih =>
    unfold renumber
    rw [ih, valueAt_mapUpdate_index]

theorem stampOf_renumber_of_not_mem {ks : List String} {a : String} (ha : a ∉ ks) (L : Nat)
    (d : List (String × orderedStringMapEntry V)) :
    stampOf (renumber ks L d) a = stampOf d a := by
  induction ks generalizing L d with
  | nil => rfl
  | cons k ks ih =>
    unfold renumber
    rw [List.mem_cons, not_or] at ha
    rw [ih ha.2, stampOf_mapUpdate_ne ha.1]

/-- The stamps that `renumber` hands out, read along `ks`, are `L + 1, ..., L + |ks|`. -/
theorem stamps_renumber {ks : List String} (hn : ks.Nodup) (L : Nat)
    {d : List (String × orderedStringMapEntry V)} (hk : ∀ a ∈ ks, a ∈ keysOf d) :
    ks.map (stampOf (renumber ks L d)) = List.range' (L + 1) ks.length := by
  induction ks generalizing L d with
  | nil => rfl
  | cons k ks ih =>
    rw [List.nodup_cons] at hn
    have hk1 : k ∈ keysOf d := hk k (List.mem_cons_self k ks)
    have hk2 : ∀ a ∈ ks, a ∈ keysOf (mapUpdate k (fun e => { e with index := L + 1 }) d) := by
      intro a ha
      rw [keysOf_mapUpdate]
      exact hk a (List.mem_cons_of_mem k ha)
    rw [List.map_cons, List.length_cons, List.range'_succ]
    unfold renumber
    rw [ih hn.2 (L + 1) hk2, stampOf_renumber_of_not_mem hn.1,
      stampOf_mapUpdate_index_self hk1]

theorem ordered_renumber {ks : List String} (L : Nat)
    {d : List (String × orderedStringMapEntry V)} (hn : (keysOf d).Nodup)
    (hp : ks.Perm (keysOf d)) : Ordered (renumber ks L d) ks := by
  have hks : ks.Nodup := (hp.nodup_iff).mpr hn
  refine ⟨(keysOf_renumber ks L d).symm ▸ hn, (keysOf_renumber ks L d).symm ▸ hp, ?_⟩
  rw [stamps_renumber hks L (fun a ha => hp.subset ha)]
  exact List.pairwise_lt_range' (L + 1) ks.length

theorem stampOf_renumber_bounds {ks : List String} (hn : ks.Nodup) (L : Nat)
    {d : List (String × orderedStringMapEntry V)} (hk : ∀ a ∈ ks, a ∈ keysOf d)
    {a : String} (ha : a ∈ ks) :
    L + 1 ≤ stampOf (renumber ks L d) a ∧ stampOf (renumber ks L d) a ≤ L + ks.length := by
  have h1 : stampOf (renumber ks L d) a ∈ ks.map (stampOf (renumber ks L d)) :=
    List.mem_map_of_mem _ ha
  rw [stamps_renumber hn L hk, List.mem_range'_1] at h1
  omega

theorem increment_of_lt {o : OrderedStringMap V} (h : o.lastIndex < maxUint64) :
    increment o = (o.lastIndex + 1, { o with lastIndex := o.lastIndex + 1 }) := by
  unfold maxUint64 at h
  have : (o.lastIndex + 1) % 2 ^ 64 = o.lastIndex + 1 := Nat.mod_eq_of_lt (by omega)
  simp only [increment, this]

/-- Below `math.MaxUint64`, `getIndex` increments the counter and touches nothing else. -/
theorem getIndex_of_lt (fuel : Nat) {o : OrderedStringMap V} (h : o.lastIndex < maxUint64) :
    getIndex fuel o = some (o.lastIndex + 1, { o with lastIndex := o.lastIndex + 1 }) := by
  have hne : o.lastIndex ≠ maxUint64 := Nat.ne_of_lt h
  cases fuel with
  | zero => simp only [getIndex, hne, if_false, increment_of_lt h]
  | succ f => simp only [getIndex, hne, if_false, increment_of_lt h]

/-- While the counter stays below `math.MaxUint64`, the loop of `Reindex` is `renumber`. -/
theorem reindexLoop_of_le (fuel : Nat) (ks : List String) (o : OrderedStringMap V)
    (hk : ∀ a ∈ ks, a ∈ keysOf o.data) (hl : o.lastIndex + ks.length ≤ maxUint64) :
    reindexLoop (getIndex fuel) ks o =
      some { data := renumber ks o.lastIndex o.data, lastIndex := o.lastIndex + ks.length } := by
  induction ks generalizing o with
  | nil => rfl
  | cons k ks ih =>
    rw [List.length_cons] at hl
    have hlt : o.lastIndex < maxUint64 := by omega
    obtain ⟨e, he⟩ := (mapLookup_isSome_iff k o.data).mpr (hk k (List.mem_cons_self k ks))
    unfold reindexLoop
    rw [getIndex_of_lt fuel hlt]
    simp only [he]
    rw [ih]
    · simp only [renumber, List.length_cons]
      congr 2
      omega
    · intro a ha
      simp only [keysOf_mapUpdate]
      exact hk a (List.mem_cons_of_mem k ha)
    · simp only
      omega

theorem getKeys_length (b : Bool) (o : OrderedStringMap V) :
    (getKeys b o).length = o.data.length := by
  unfold getKeys
  rw [List.length_map]
  exact (sortSlice_perm o.data).length_eq

theorem getKeys_perm (b : Bool) (o : OrderedStringMap V) :
    (getKeys b o).Perm (keysOf o.data) :=
  keysOf_sortSlice_perm o.data

/-- At `math.MaxUint64`, `getIndex` gives the stamps `1, ..., N` to the `N` entries in
their order and returns `N + 1` (for `N < 2 ^ 64 - 1` and one unit of fuel). -/
theorem getIndex_of_eq (fuel : Nat) {o : OrderedStringMap V} (h : o.lastIndex = maxUint64)
    (hsize : o.data.length < maxUint64) :
    getIndex (fuel + 1) o =
      some (o.data.length + 1,
        { data := renumber (getKeys false o) 0 o.data, lastIndex := o.data.length + 1 }) := by
  have hkeys : getKeys false { o with lastIndex := 0 } = getKeys false o := rfl
  have hloop := reindexLoop_of_le fuel (getKeys false o) { o with lastIndex := 0 }
    (fun a ha => (getKeys_perm false o).subset ha)
    (by simp only [getKeys_length]; omega)
  simp only [getIndex, h, if_true, hkeys, hloop]
  rw [increment_of_lt (by simp only [getKeys_length]; omega)]
  simp only [getKeys_length, Nat.zero_add]

theorem reindexLoop_mono {g g1 : OrderedStringMap V → Option (Nat × OrderedStringMap V)}
    (hg : ∀ o r, g o = some r → g1 o = some r) (ks : List String) (o r : OrderedStringMap V)
    (h : reindexLoop g ks o = some r) : reindexLoop g1 ks o = some r := by
  induction ks generalizing o with
  | nil => exact h
  | cons k ks ih =>
    unfold reindexLoop at h ⊢
    cases hgo : g o with
    | none => simp [hgo] at h
    | some ir =>
      rw [hg o ir hgo]
      rw [hgo] at h
      obtain ⟨i, o1⟩ := ir
      simp only at h ⊢
      cases hl : mapLookup k o1.data with
      | none => simp [hl] at h
      | some e =>
        simp only [hl] at h ⊢
        exact ih _ h

/-- More fuel does not change a result. -/
theorem getIndex_mono (fuel : Nat) (o : OrderedStringMap V) (r : Nat × OrderedStringMap V)
    (h : getIndex fuel o = some r) : getIndex (fuel + 1) o = some r := by
  induction fuel generalizing o r with
  | zero =>
    by_cases hl : o.lastIndex = maxUint64
    · simp [getIndex, hl] at h
    · simp only [getIndex, hl, if_false] at h ⊢
      exact h
  | succ f ih =>
    by_cases hl : o.lastIndex = maxUint64
    · simp only [getIndex, hl, if_true] at h
      cases hr : reindexLoop (getIndex f) (getKeys false { o with lastIndex := 0 })
          { o with lastIndex := 0 } with
      | none => simp [hr] at h
      | some o1 =>
        have := reindexLoop_mono (fun o r => ih o r) _ _ _ hr
        rw [hr] at h
        rw [getIndex]
        simp only [hl, if_true, this]
        exact h
    · rw [getIndex]
      simp only [getIndex, hl, if_false] at h ⊢
      exact h

theorem Reindex_mono (fuel : Nat) (o r : OrderedStringMap V)
    (h : Reindex fuel o = some r) : Reindex (fuel + 1) o = some r :=
  reindexLoop_mono (fun o r => getIndex_mono fuel o r) _ _ _ h

theorem Add_mono (fuel : Nat) (k : String) (v : Option V) (o r : OrderedStringMap V)
    (h : Add fuel k v o = some r) : Add (fuel + 1) k v o = some r := by
  unfold Add at h ⊢
  cases hl : mapLookup k o.data with
  | none =>
    simp only [hl] at h ⊢
    cases hg : getIndex fuel o with
    | none => simp [hg] at h
    | some ir =>
      rw [getIndex_mono fuel o ir hg]
      rw [hg] at h
      exact h
  | some e =>
    simp only [hl] at h ⊢
    cases hg : getIndex fuel
        { o with data := mapUpdate k (fun e => { e with value := v }) o.data } with
    | none => simp [hg] at h
    | some ir =>
      rw [getIndex_mono fuel _ ir hg]
      rw [hg] at h
      exact h

end RenumberLemmas

section InvariantLemmas

variable {V : Type}

theorem getKeys_of_ordered {o : OrderedStringMap V} {ks : List String} (b : Bool)
    (h : Ordered o.data ks) : getKeys b o = ks :=
  sortSlice_keys_of_ordered h

theorem Inv.of_ordered {s : OrderedStringMap V} {ks : List String} (h : Ordered s.data ks)
    (hpos : ∀ a ∈ keysOf s.data, 1 ≤ stampOf s.data a)
    (hle : ∀ a ∈ keysOf s.data, stampOf s.data a ≤ s.lastIndex)
    (hlast : s.lastIndex ≤ maxUint64) (hsize : s.data.length < maxUint64) : Inv s :=
  ⟨(getKeys_of_ordered false h).symm ▸ h, hpos, hle, hlast, hsize⟩

theorem Inv.keys_nodup {s : OrderedStringMap V} (h : Inv s) : (keysOf s.data).Nodup :=
  h.ordered.1

/-- The guarantee of `getIndex` in a state that satisfies the invariant. -/
theorem getIndex_post (fuel : Nat) {o : OrderedStringMap V} (hinv : Inv o)
    (hf : o.lastIndex < maxUint64 ∨ 1 ≤ fuel) :
    ∃ i o1, getIndex fuel o = some (i, o1) ∧ IndexPost o i o1 := by
  by_cases hl : o.lastIndex < maxUint64
  · refine ⟨_, _, getIndex_of_lt fuel hl, ?_⟩
    refine ⟨rfl, by omega, by omega, rfl, fun _ => rfl, hinv.stamp_pos, ?_, hinv.ordered⟩
    intro a ha
    have := hinv.stamp_le a ha
    simp only
    omega
  · have heq : o.lastIndex = maxUint64 := Nat.le_antisymm hinv.last_le (Nat.le_of_not_lt hl)
    obtain ⟨f, rfl⟩ : ∃ f, fuel = f + 1 := by
      rcases hf with h | h
      · exact absurd h hl
      · exact ⟨fuel - 1, by omega⟩
    refine ⟨_, _, getIndex_of_eq f heq hinv.size_lt, ?_⟩
    have hperm := getKeys_perm false o
    have hnd : (getKeys false o).Nodup := (hperm.nodup_iff).mpr hinv.keys_nodup
    have hsize := hinv.size_lt
    have hb : ∀ a ∈ keysOf o.data,
        0 + 1 ≤ stampOf (renumber (getKeys false o) 0 o.data) a ∧
        stampOf (renumber (getKeys false o) 0 o.data) a ≤ 0 + (getKeys false o).length :=
      fun a ha => stampOf_renumber_bounds hnd 0 (fun b hb => hperm.subset hb) (hperm.symm.subset ha)
    refine ⟨rfl, by omega, by omega, keysOf_renumber _ _ _, valueAt_renumber _ _ _, ?_, ?_,
      ordered_renumber 0 hinv.keys_nodup hperm⟩
    · intro a ha
      have := (hb a ha).1
      simpa using this
    · intro a ha
      have := (hb a ha).2
      rw [getKeys_length] at this
      simp only at this ⊢
      omega

/-- Writing the returned stamp into the entry of a present key `k`. -/
theorem touch_present {o o1 : OrderedStringMap V} {i : Nat} {k : String}
    (hp : IndexPost o i o1) (hk : k ∈ keysOf o.data) (hsize : o.data.length < maxUint64) :
    Inv { o1 with data := mapUpdate k (fun e => { e with index := i }) o1.data } ∧
    Ordered (mapUpdate k (fun e => { e with index := i }) o1.data)
      ((getKeys false o).filter (fun a => decide (a ≠ k)) ++ [k]) := by
  have hk1 : k ∈ keysOf o1.data := hp.keys ▸ hk
  have hord : Ordered (mapUpdate k (fun e => { e with index := i }) o1.data)
      ((getKeys false o).filter (fun a => decide (a ≠ k)) ++ [k]) := by
    refine hp.ordered.touch ?_ ?_ ?_
    · rw [keysOf_mapUpdate]
      exact perm_filter_ne_append hp.ordered.1 hk1
    · intro a ha
      exact stampOf_mapUpdate_ne ha _ _
    · intro a ha _
      rw [stampOf_mapUpdate_index_self hk1]
      exact hp.stamp_lt a (hp.keys ▸ ha)
  refine ⟨Inv.of_ordered hord ?_ ?_ ?_ ?_, hord⟩
  · intro a ha
    simp only [keysOf_mapUpdate] at ha
    by_cases hak : a = k
    · subst hak
      simp only [stampOf_mapUpdate_index_self hk1]
      exact hp.pos
    · simp only [stampOf_mapUpdate_ne hak]
      exact hp.stamp_pos a (hp.keys ▸ ha)
  · intro a ha
    simp only [keysOf_mapUpdate] at ha
    by_cases hak : a = k
    · subst hak
      simp only [stampOf_mapUpdate_index_self hk1, hp.last]
      exact Nat.le_refl _
    · simp only [stampOf_mapUpdate_ne hak, hp.last]
      exact Nat.le_of_lt (hp.stamp_lt a (hp.keys ▸ ha))
  · simp only [hp.last]
    exact hp.le
  · have h1 : (mapUpdate k (fun e => { e with index := i }) o1.data).length = o1.data.length :=
      length_eq_of_keysOf_eq (keysOf_mapUpdate _ _ _)
    have h2 : o1.data.length = o.data.length := length_eq_of_keysOf_eq hp.keys
    simp only [h1, h2]
    exact hsize

theorem stampOf_mapInsert_self {k : String} (e : orderedStringMapEntry V)
    {d : List (String × orderedStringMapEntry V)} (hk : k ∉ keysOf d) :
    stampOf (mapInsert k e d) k = e.index := by
  unfold stampOf
  rw [mapLookup_mapInsert_self e ((mapLookup_eq_none_iff k d).mpr hk)]

theorem stampOf_mapInsert_ne {k a : String} (h : a ≠ k) (e : orderedStringMapEntry V)
    (d : List (String × orderedStringMapEntry V)) :
    stampOf (mapInsert k e d) a = stampOf d a := by
  unfold stampOf
  rw [mapLookup_mapInsert_ne h]

/-- Storing a new entry with the returned stamp under an absent key `k`. -/
theorem touch_absent {o o1 : OrderedStringMap V} {i : Nat} {k : String} (v : Option V)
    (hp : IndexPost o i o1) (hk : k ∉ keysOf o.data) :
    (o.data.length + 1 < maxUint64 →
      Inv { o1 with data := mapInsert k { value := v, index := i } o1.data }) ∧
    Ordered (mapInsert k { value := v, index := i } o1.data)
      ((getKeys false o).filter (fun a => decide (a ≠ k)) ++ [k]) := by
  have hk1 : k ∉ keysOf o1.data := hp.keys ▸ hk
  have hord : Ordered (mapInsert k { value := v, index := i } o1.data)
      ((getKeys false o).filter (fun a => decide (a ≠ k)) ++ [k]) := by
    refine hp.ordered.touch ?_ ?_ ?_
    · rw [keysOf_mapInsert, filter_ne_of_not_mem hk1]
    · intro a ha
      exact stampOf_mapInsert_ne ha _ _
    · intro a ha _
      rw [stampOf_mapInsert_self _ hk1]
      exact hp.stamp_lt a (hp.keys ▸ ha)
  refine ⟨fun hsize => Inv.of_ordered hord ?_ ?_ ?_ ?_, hord⟩
  · intro a ha
    simp only [keysOf_mapInsert, List.mem_append, List.mem_singleton] at ha
    by_cases hak : a = k
    · subst hak
      simp only [stampOf_mapInsert_self _ hk1]
      exact hp.pos
    · simp only [stampOf_mapInsert_ne hak]
      exact hp.stamp_pos a (hp.keys ▸ (ha.resolve_right hak))
  · intro a ha
    simp only [keysOf_mapInsert, List.mem_append, List.mem_singleton] at ha
    by_cases hak : a = k
    · subst hak
      simp only [stampOf_mapInsert_self _ hk1, hp.last]
      exact Nat.le_refl _
    · simp only [stampOf_mapInsert_ne hak, hp.last]
      exact Nat.le_of_lt (hp.stamp_lt a (hp.keys ▸ (ha.resolve_right hak)))
  · simp only [hp.last]
    exact hp.le
  · have h2 : o1.data.length = o.data.length := length_eq_of_keysOf_eq hp.keys
    simp only [mapInsert, List.length_append, List.length_singleton, h2]
    exact hsize

theorem Ordered.delete {d : List (String × orderedStringMapEntry V)} {ks : List String}
    (h : Ordered d ks) (k : String) :
    Ordered (mapDelete k d) (ks.filter (fun a => decide (a ≠ k))) := by
  obtain ⟨hn, hperm, hsorted⟩ := h
  refine ⟨?_, ?_, ?_⟩
  · rw [keysOf_mapDelete]
    exact hn.filter _
  · rw [keysOf_mapDelete]
    exact hperm.filter _
  · have h1 : (ks.filter (fun a => decide (a ≠ k))).map (stampOf (mapDelete k d)) =
        (ks.filter (fun a => decide (a ≠ k))).map (stampOf d) := by
      apply List.map_congr_left
      intro a ha
      have hak : a ≠ k := by simpa using (List.mem_filter.mp ha).2
      unfold stampOf
      rw [mapLookup_mapDelete_ne hak]
    rw [h1]
    exact hsorted.sublist ((List.filter_sublist ks).map (stampOf d))

theorem Inv.del {s : OrderedStringMap V} (h : Inv s) (k : String) : Inv (Del k s) := by
  have hmem : ∀ a ∈ keysOf (mapDelete k s.data), a ∈ keysOf s.data ∧ a ≠ k := by
    intro a ha
    rw [keysOf_mapDelete] at ha
    have := List.mem_filter.mp ha
    exact ⟨this.1, by simpa using this.2⟩
  have hst : ∀ a ∈ keysOf (mapDelete k s.data),
      stampOf (mapDelete k s.data) a = stampOf s.data a := by
    intro a ha
    unfold stampOf
    rw [mapLookup_mapDelete_ne (hmem a ha).2]
  refine Inv.of_ordered (h.ordered.delete k) ?_ ?_ h.last_le ?_
  · intro a ha
    have := h.stamp_pos a (hmem a ha).1
    simp only [Del] at ha ⊢
    rw [hst a ha]
    exact this
  · intro a ha
    have := h.stamp_le a (hmem a ha).1
    simp only [Del] at ha ⊢
    rw [hst a ha]
    exact this
  · have : (mapDelete k s.data).length ≤ s.data.length := List.length_filter_le _ _
    have := h.size_lt
    simp only [Del]
    omega

theorem filter_ne_cons_self {k : String} {l : List String} (hk : k ∉ l) :
    (k :: l).filter (fun a => decide (a ≠ k)) = l := by
  rw [List.filter_cons]
  simp only [ne_eq, not_true_eq_false, decide_False, Bool.false_eq_true, if_false]
  exact filter_ne_of_not_mem hk

/-- The loop of `Reindex` on the keys `rest`, when the keys `done` have been renumbered
already: every key of `rest`, in turn, moves behind all the others. -/
theorem reindexLoop_spec (fuel : Nat) (hf : 1 ≤ fuel) (rest done : List String)
    (o : OrderedStringMap V) (hinv : Inv o) (hord : getKeys false o = rest ++ done) :
    ∃ o1, reindexLoop (getIndex fuel) rest o = some o1 ∧ Inv o1 ∧
      getKeys false o1 = done ++ rest ∧ keysOf o1.data = keysOf o.data ∧
      ∀ a, valueAt o1.data a = valueAt o.data a := by
  induction rest generalizing done o with
  | nil =>
    refine ⟨o, rfl, hinv, ?_, rfl, fun _ => rfl⟩
    simpa using hord
  | cons k r ih =>
    obtain ⟨i, o1, hg, hp⟩ := getIndex_post fuel hinv (Or.inr hf)
    have hperm := getKeys_perm false o
    have hnd : (k :: (r ++ done)).Nodup := by
      have := (hperm.nodup_iff).mpr hinv.keys_nodup
      rw [hord] at this
      exact this
    have hk : k ∈ keysOf o.data := by
      apply hperm.subset
      rw [hord]
      exact List.mem_cons_self k _
    obtain ⟨e, he⟩ := (mapLookup_isSome_iff k o1.data).mpr (hp.keys ▸ hk)
    obtain ⟨hinv2, hord2⟩ := touch_present hp hk hinv.size_lt
    rw [hord, List.cons_append, filter_ne_cons_self (List.nodup_cons.mp hnd).1] at hord2
    have hkeys2 : getKeys false
        { o1 with data := mapUpdate k (fun e => { e with index := i }) o1.data } = _ :=
      getKeys_of_ordered false hord2
    rw [List.append_assoc] at hkeys2
    obtain ⟨o2, hloop, hinv3, hord3, hkeys3, hval3⟩ := ih (done ++ [k]) _ hinv2 hkeys2
    refine ⟨o2, ?_, hinv3, ?_, ?_, ?_⟩
    · unfold reindexLoop
      rw [hg]
      simp only [he]
      exact hloop
    · rw [hord3]
      simp
    · rw [hkeys3]
      simp only [keysOf_mapUpdate]
      exact hp.keys
    · intro a
      rw [hval3 a]
      simp only [valueAt_mapUpdate_index]
      exact hp.values a

/-- The method `Reindex` returns (with one unit of fuel) and keeps the invariant, the keys,
the values and the order of the keys. -/
theorem Reindex_spec (fuel : Nat) (hf : 1 ≤ fuel) (o : OrderedStringMap V) (hinv : Inv o) :
    ∃ o1, Reindex fuel o = some o1 ∧ Inv o1 ∧ getKeys false o1 = getKeys false o ∧
      keysOf o1.data = keysOf o.data ∧ ∀ a, valueAt o1.data a = valueAt o.data a := by
  obtain ⟨o1, h1, h2, h3, h4, h5⟩ :=
    reindexLoop_spec fuel hf (getKeys false o) [] o hinv (by simp)
  exact ⟨o1, h1, h2, by simpa using h3, h4, h5⟩

theorem valueAt_mapUpdate_value_self {k : String} (v : Option V)
    {d : List (String × orderedStringMapEntry V)} (hk : k ∈ keysOf d) :
    valueAt (mapUpdate k (fun e => { e with value := v }) d) k = some v := by
  obtain ⟨e, he⟩ := (mapLookup_isSome_iff k d).mpr hk
  unfold valueAt
  rw [mapLookup_mapUpdate_self, he]
  rfl

theorem valueAt_mapUpdate_ne {k a : String} (h : a ≠ k)
    (f : orderedStringMapEntry V → orderedStringMapEntry V)
    (d : List (String × orderedStringMapEntry V)) :
    valueAt (mapUpdate k f d) a = valueAt d a := by
  unfold valueAt
  rw [mapLookup_mapUpdate_ne h]

theorem valueAt_mapInsert_self {k : String} (e : orderedStringMapEntry V)
    {d : List (String × orderedStringMapEntry V)} (hk : k ∉ keysOf d) :
    valueAt (mapInsert k e d) k = some e.value := by
  unfold valueAt
  rw [mapLookup_mapInsert_self e ((mapLookup_eq_none_iff k d).mpr hk)]
  rfl

theorem valueAt_mapInsert_ne {k a : String} (h : a ≠ k) (e : orderedStringMapEntry V)
    (d : List (String × orderedStringMapEntry V)) :
    valueAt (mapInsert k e d) a = valueAt d a := by
  unfold valueAt
  rw [mapLookup_mapInsert_ne h]

/-- The method `Add` in a state that satisfies the invariant: it returns, the key moves to
the end of the order, its value is the new one, and the other keys are untouched. -/
theorem Add_spec (fuel : Nat) (k : String) (v : Option V) (o : OrderedStringMap V)
    (hinv : Inv o) (hf : o.lastIndex < maxUint64 ∨ 1 ≤ fuel) :
    ∃ o1, Add fuel k v o = some o1 ∧
      getKeys false o1 = (getKeys false o).filter (fun a => decide (a ≠ k)) ++ [k] ∧
      (keysOf o1.data).Perm ((keysOf o.data).filter (fun a => decide (a ≠ k)) ++ [k]) ∧
      valueAt o1.data k = some v ∧ (∀ a, a ≠ k → valueAt o1.data a = valueAt o.data a) ∧
      (o1.data.length < maxUint64 → Inv o1) := by
  by_cases hk : k ∈ keysOf o.data
  · obtain ⟨e, he⟩ := (mapLookup_isSome_iff k o.data).mpr hk
    have hkeys0 : keysOf (mapUpdate k (fun e => { e with value := v }) o.data) = keysOf o.data :=
      keysOf_mapUpdate _ _ _
    have hord0 : Ordered (mapUpdate k (fun e => { e with value := v }) o.data)
        (getKeys false o) :=
      hinv.ordered.congr hkeys0 (stampOf_mapUpdate_value k v o.data)
    have hinv0 : Inv { o with data := mapUpdate k (fun e => { e with value := v }) o.data } := by
      refine Inv.of_ordered hord0 ?_ ?_ hinv.last_le ?_
      · intro a ha
        simp only [stampOf_mapUpdate_value]
        exact hinv.stamp_pos a (hkeys0 ▸ ha)
      · intro a ha
        simp only [stampOf_mapUpdate_value]
        exact hinv.stamp_le a (hkeys0 ▸ ha)
      · simp only [length_eq_of_keysOf_eq hkeys0]
        exact hinv.size_lt
    have hgk : getKeys false
        { o with data := mapUpdate k (fun e => { e with value := v }) o.data } =
        getKeys false o := getKeys_of_ordered false hord0
    obtain ⟨i, o1, hg, hp⟩ := getIndex_post fuel hinv0 hf
    have hk0 : k ∈ keysOf
        ({ o with data := mapUpdate k (fun e => { e with value := v }) o.data } :
          OrderedStringMap V).data := hkeys0.symm ▸ hk
    obtain ⟨hinv2, hord2⟩ := touch_present hp hk0 hinv0.size_lt
    rw [hgk] at hord2
    refine ⟨_, ?_, getKeys_of_ordered false hord2, ?_, ?_, ?_, fun _ => hinv2⟩
    · unfold Add
      simp only [he, hg]
    · simp only [keysOf_mapUpdate]
      rw [hp.keys]
      simp only [keysOf_mapUpdate]
      exact perm_filter_ne_append hinv.keys_nodup hk
    · simp only [valueAt_mapUpdate_index]
      rw [hp.values]
      exact valueAt_mapUpdate_value_self v hk
    · intro a ha
      simp only [valueAt_mapUpdate_index]
      rw [hp.values]
      exact valueAt_mapUpdate_ne ha (fun e => { e with value := v }) o.data
  · have he := (mapLookup_eq_none_iff k o.data).mpr hk
    obtain ⟨i, o1, hg, hp⟩ := getIndex_post fuel hinv hf
    obtain ⟨hinv2, hord2⟩ := touch_absent v hp hk
    have hk1 : k ∉ keysOf o1.data := hp.keys ▸ hk
    refine ⟨{ o1 with data := mapInsert k { value := v, index := i } o1.data }, ?_,
      getKeys_of_ordered false hord2, ?_, ?_, ?_, ?_⟩
    · unfold Add
      simp only [he, hg]
    · simp only [keysOf_mapInsert]
      rw [hp.keys, filter_ne_of_not_mem hk]
    · simp only [valueAt_mapInsert_self _ hk1]
    · intro a ha
      simp only [valueAt_mapInsert_ne ha]
      exact hp.values a
    · intro hlen
      apply hinv2
      have h2 : o1.data.length = o.data.length := length_eq_of_keysOf_eq hp.keys
      simp only [mapInsert, List.length_append, List.length_singleton, h2] at hlen
      exact hlen

theorem Inv.new (cap : List Int) : Inv (NewOrderedStringMap cap : OrderedStringMap V) := by
  have h : (NewOrderedStringMap cap : OrderedStringMap V) = { data := [], lastIndex := 0 } := by
    cases cap <;> rfl
  rw [h]
  have hnil : Ordered ([] : List (String × orderedStringMapEntry V)) [] :=
    ⟨List.nodup_nil, List.Perm.refl _, List.Pairwise.nil⟩
  refine Inv.of_ordered hnil ?_ ?_ ?_ ?_
  · intro a ha
    cases ha
  · intro a ha
    cases ha
  · exact Nat.zero_le _
  · simp [maxUint64]

/-- Every reachable state satisfies the invariant. -/
theorem Reachable.inv {s : OrderedStringMap V} (h : Reachable s) : Inv s := by
  induction h with
  | new cap => exact Inv.new cap
  | add fuel k v _ hadd hsize ih =>
    obtain ⟨o1, h1, _, _, _, _, h6⟩ :=
      Add_spec (fuel + 1) k v _ ih (Or.inr (Nat.le_add_left 1 fuel))
    rw [Add_mono fuel k v _ _ hadd] at h1
    cases h1
    exact h6 hsize
  | del k _ ih => exact ih.del k
  | reindex fuel _ hre ih =>
    obtain ⟨o1, h1, h2, _⟩ := Reindex_spec (fuel + 1) (Nat.le_add_left 1 fuel) _ ih
    rw [Reindex_mono fuel _ _ hre] at h1
    cases h1
    exact h2

end InvariantLemmas

section Claims

variable {V : Type}

theorem exampleMap_reachable : Reachable exampleMap := by
  have h0 : Reachable (NewOrderedStringMap [] : OrderedStringMap Nat) := Reachable.new []
  have h1 : Reachable
      ({ data := [("x", { value := some 1, index := 1 })], lastIndex := 1 } :
        OrderedStringMap Nat) :=
    Reachable.add 0 "x" (some 1) h0 (by decide) (by decide)
  exact Reachable.add 0 "y" (some 2) h1 (by decide) (by decide)

theorem exampleMap2_reachable : Reachable exampleMap2 :=
  Reachable.add 0 "x" (some 3) exampleMap_reachable (by decide) (by decide)

theorem GetKeys_nodup {s : OrderedStringMap V} (h : Inv s) : (GetKeys s).Nodup :=
  ((getKeys_perm true s).nodup_iff).mpr h.keys_nodup

theorem erase_eq_filter_ne {l : List String} (hn : l.Nodup) (k : String) :
    l.erase k = l.filter (fun a => decide (a ≠ k)) := by
  rw [hn.erase_eq_filter]
  apply List.filter_congr
  intro a _
  by_cases hak : a = k <;> simp [hak]

/-- C1 (order reflects recency): in every reachable state whose counter is below
`math.MaxUint64`, `Add(k, v)` returns and afterwards the last element of `GetKeys()` is
`k`, whether or not `k` was present before. -/
theorem C1_add_puts_key_last (s : OrderedStringMap V) (hs : Reachable s)
    (hl : s.lastIndex < maxUint64) (fuel : Nat) (k : String) (v : Option V) :
    ∃ s1, Add fuel k v s = some s1 ∧ (GetKeys s1).getLast? = some k := by
  obtain ⟨s1, h1, h2, _⟩ := Add_spec fuel k v s hs.inv (Or.inl hl)
  refine ⟨s1, h1, ?_⟩
  unfold GetKeys
  have h3 : getKeys true s1 = getKeys false s1 := rfl
  rw [h3, h2, List.getLast?_append]
  rfl

theorem C1_add_puts_key_last_witness :
    Reachable exampleMap ∧ exampleMap.lastIndex < maxUint64 ∧
    (∃ s1, Add 0 "x" (some 3) exampleMap = some s1 ∧ (GetKeys s1).getLast? = some "x") ∧
    (∃ s1, Add 0 "z" (some 3) exampleMap = some s1 ∧ (GetKeys s1).getLast? = some "z") :=
  ⟨exampleMap_reachable, by decide,
    C1_add_puts_key_last exampleMap exampleMap_reachable (by decide) 0 "x" (some 3),
    C1_add_puts_key_last exampleMap exampleMap_reachable (by decide) 0 "z" (some 3)⟩

/-- C2 (Add moves only the touched key): in every reachable state whose counter is below
`math.MaxUint64`, `GetKeys()` after `Add(k, v)` is `GetKeys()` before the call with `k`
removed, followed by `k`; the other keys keep their relative order. -/
theorem C2_add_moves_only_key (s : OrderedStringMap V) (hs : Reachable s)
    (hl : s.lastIndex < maxUint64) (fuel : Nat) (k : String) (v : Option V) :
    ∃ s1, Add fuel k v s = some s1 ∧ GetKeys s1 = (GetKeys s).erase k ++ [k] := by
  obtain ⟨s1, h1, h2, _⟩ := Add_spec fuel k v s hs.inv (Or.inl hl)
  refine ⟨s1, h1, ?_⟩
  rw [erase_eq_filter_ne (GetKeys_nodup hs.inv)]
  exact h2

theorem C2_add_moves_only_key_witness :
    Reachable exampleMap ∧ exampleMap.lastIndex < maxUint64 ∧
    ∃ s1, Add 0 "x" (some 3) exampleMap = some s1 ∧
      GetKeys s1 = (GetKeys exampleMap).erase "x" ++ ["x"] :=
  ⟨exampleMap_reachable, by decide,
    C2_add_moves_only_key exampleMap exampleMap_reachable (by decide) 0 "x" (some 3)⟩

/-- Below `math.MaxUint64`, `Add` is one increment of the counter and one write to the
store. -/
theorem Add_of_lt (fuel : Nat) (k : String) (v : Option V) {s : OrderedStringMap V}
    (hl : s.lastIndex < maxUint64) :
    Add fuel k v s = some
      (match mapLookup k s.data with
        | some _ =>
          { data := mapUpdate k (fun e => { e with index := s.lastIndex + 1 })
              (mapUpdate k (fun e => { e with value := v }) s.data),
            lastIndex := s.lastIndex + 1 }
        | none =>
          { data := mapInsert k { value := v, index := s.lastIndex + 1 } s.data,
            lastIndex := s.lastIndex + 1 }) := by
  unfold Add
  cases hk : mapLookup k s.data with
  | none => simp only [getIndex_of_lt fuel hl]
  | some e =>
    have hl2 : ({ s with data := mapUpdate k (fun e => { e with value := v }) s.data } :
        OrderedStringMap V).lastIndex < maxUint64 := hl
    simp only [getIndex_of_lt fuel hl2]

theorem Add_lastIndex_of_lt (fuel : Nat) (k : String) (v : Option V) {s s1 : OrderedStringMap V}
    (hl : s.lastIndex < maxUint64) (h : Add fuel k v s = some s1) :
    s1.lastIndex = s.lastIndex + 1 := by
  rw [Add_of_lt fuel k v hl] at h
  cases hk : mapLookup k s.data with
  | none =>
    simp only [hk, Option.some.injEq] at h
    rw [← h]
  | some e =>
    simp only [hk, Option.some.injEq] at h
    rw [← h]

theorem applyAdds_append (fuel : Nat) (cs : List (String × Option V)) (c : String × Option V)
    (o : OrderedStringMap V) :
    applyAdds fuel (cs ++ [c]) o =
      match applyAdds fuel cs o with
      | none => none
      | some o1 => Add fuel c.1 c.2 o1 := by
  induction cs generalizing o with
  | nil =>
    simp only [List.nil_append, applyAdds]
    cases Add fuel c.1 c.2 o <;> rfl
  | cons a cs ih =>
    simp only [List.cons_append, applyAdds]
    cases Add fuel a.1 a.2 o with
    | none => rfl
    | some o1 => exact ih o1

theorem specKeepLast_cons (k : String) (ks : List String) :
    specKeepLast (k :: ks) = if k ∈ ks then specKeepLast ks else k :: specKeepLast ks := rfl

theorem specLastValue_cons (k : String) (c : String × Option V)
    (cs : List (String × Option V)) :
    specLastValue k (c :: cs) =
      match specLastValue k cs with
      | some v => some v
      | none => if c.1 = k then some c.2 else none := rfl

theorem specKeepLast_append (l : List String) (k : String) :
    specKeepLast (l ++ [k]) = (specKeepLast l).filter (fun a => decide (a ≠ k)) ++ [k] := by
  induction l with
  | nil => simp [specKeepLast]
  | cons a l ih =>
    rw [List.cons_append, specKeepLast_cons, specKeepLast_cons, ih]
    by_cases hal : a ∈ l
    · have h1 : a ∈ l ++ [k] := List.mem_append_left _ hal
      rw [if_pos h1, if_pos hal]
    · by_cases hak : a = k
      · subst hak
        have h1 : a ∈ l ++ [a] := List.mem_append_right _ (List.mem_singleton_self a)
        rw [if_pos h1, if_neg hal, List.filter_cons]
        simp
      · have h1 : a ∉ l ++ [k] := by
          simp only [List.mem_append, List.mem_singleton, not_or]
          exact ⟨hal, hak⟩
        rw [if_neg h1, if_neg hal, List.filter_cons]
        simp [hak]

theorem mem_specKeepLast (l : List String) (a : String) : a ∈ specKeepLast l ↔ a ∈ l := by
  induction l with
  | nil => simp [specKeepLast]
  | cons b l ih =>
    simp only [specKeepLast]
    by_cases hbl : b ∈ l
    · simp only [hbl, if_true, ih, List.mem_cons]
      constructor
      · exact Or.inr
      · rintro (rfl | h)
        · exact hbl
        · exact h
    · simp only [hbl, if_false, List.mem_cons, ih]

theorem specLastValue_append (k : String) (cs : List (String × Option V))
    (c : String × Option V) :
    specLastValue k (cs ++ [c]) = if c.1 = k then some c.2 else specLastValue k cs := by
  induction cs with
  | nil => simp [specLastValue]
  | cons a cs ih =>
    rw [List.cons_append, specLastValue_cons, specLastValue_cons, ih]
    by_cases hc : c.1 = k
    · simp only [hc, if_true]
    · simp only [hc, if_false]

/-- The state after a run of `Add` calls on a new map. -/
theorem applyAdds_new (fuel : Nat) (cap : List Int) (calls : List (String × Option V))
    (hlen : calls.length < maxUint64) :
    ∃ s, applyAdds fuel calls (NewOrderedStringMap cap) = some s ∧ Inv s ∧
      s.lastIndex = calls.length ∧ s.data.length ≤ calls.length ∧
      getKeys false s = specKeepLast (calls.map Prod.fst) ∧
      ∀ k, valueAt s.data k = specLastValue k calls := by
  induction calls using List.reverseRecOn with
  | nil =>
    refine ⟨NewOrderedStringMap cap, rfl, Inv.new cap, ?_, ?_, ?_, ?_⟩ <;>
      cases cap <;> first | rfl | exact Nat.le_refl _ | exact fun _ => rfl
  | append_singleton cs c ih =>
    rw [List.length_append, List.length_singleton] at hlen
    obtain ⟨s, h1, hinv, hlast, hsize, hkeys, hval⟩ := ih (by omega)
    have hl : s.lastIndex < maxUint64 := by omega
    obtain ⟨s1, ha, hk1, hperm, hv1, hv2, hinv1⟩ := Add_spec fuel c.1 c.2 s hinv (Or.inl hl)
    have hsize1 : s1.data.length ≤ s.data.length + 1 := by
      have h := hperm.length_eq
      have h2 : ((keysOf s.data).filter (fun a => decide (a ≠ c.1))).length ≤
          (keysOf s.data).length := List.length_filter_le _ _
      simp only [keysOf, List.length_map, List.length_append, List.length_singleton] at h h2
      omega
    refine ⟨s1, ?_, hinv1 (by omega), ?_, ?_, ?_, ?_⟩
    · rw [applyAdds_append, h1]
      exact ha
    · rw [Add_lastIndex_of_lt fuel c.1 c.2 hl ha, hlast, List.length_append,
        List.length_singleton]
    · rw [List.length_append, List.length_singleton]
      omega
    · rw [hk1, hkeys, List.map_append, List.map_singleton, specKeepLast_append]
    · intro k
      rw [specLastValue_append]
      by_cases hck : c.1 = k
      · subst hck
        simp only [if_true]
        exact hv1
      · simp only [hck, if_false]
        rw [hv2 k (fun h => hck h.symm)]
        exact hval k

/-- C3 (history characterisation): after any list of `Add` calls on a new map, short
enough for the counter to stay below `math.MaxUint64`, `GetKeys()` is the list of the
keys of the calls with only the last occurrence of each key kept, `Len()` is the number
of distinct keys, and `Get(k)` is `(v, true)` for the value `v` of the last call for `k`.
The second part is the scenario `Add("x",1); Add("y",2); Add("x",3)`. -/
theorem C3_history_characterisation :
    (∀ (W : Type) (fuel : Nat) (cap : List Int) (calls : List (String × Option W)),
      calls.length < maxUint64 →
      ∃ s, applyAdds fuel calls (NewOrderedStringMap cap) = some s ∧
        GetKeys s = specKeepLast (calls.map Prod.fst) ∧
        Len s = (calls.map Prod.fst).toFinset.card ∧
        ∀ k v, specLastValue k calls = some v → Get k s = (v, true)) ∧
    (∃ s : OrderedStringMap Nat,
      applyAdds 0 [("x", some 1), ("y", some 2), ("x", some 3)] (NewOrderedStringMap []) =
        some s ∧
      GetKeys s = ["y", "x"] ∧ Get "x" s = (some 3, true) ∧ Len s = 2) := by
  refine ⟨?_, ⟨_, rfl, by decide, by decide, by decide⟩⟩
  intro W fuel cap calls hlen
  obtain ⟨s, h1, hinv, _, _, hkeys, hval⟩ := applyAdds_new fuel cap calls hlen
  refine ⟨s, h1, hkeys, ?_, ?_⟩
  · have hnd : (specKeepLast (calls.map Prod.fst)).Nodup := by
      rw [← hkeys]
      exact GetKeys_nodup hinv
    have hfin : (specKeepLast (calls.map Prod.fst)).toFinset = (calls.map Prod.fst).toFinset :=
      List.toFinset.ext (mem_specKeepLast _)
    rw [← hfin, List.toFinset_card_of_nodup hnd, ← hkeys, getKeys_length]
    rfl
  · intro k v hv
    rw [Get_eq_valueAt, hval k, hv]

theorem C3_history_characterisation_witness :
    [("x", some 1), ("y", some 2), ("x", some 3)].length < maxUint64 ∧
    ∃ s : OrderedStringMap Nat,
      applyAdds 0 [("x", some 1), ("y", some 2), ("x", some 3)] (NewOrderedStringMap []) =
        some s ∧
      GetKeys s = specKeepLast ["x", "y", "x"] ∧
      Len s = (["x", "y", "x"] : List String).toFinset.card ∧
      ∀ k v, specLastValue k [("x", some 1), ("y", some 2), ("x", some 3)] = some v →
        Get k s = (v, true) :=
  ⟨by decide, C3_history_characterisation.1 Nat 0 []
    [("x", some 1), ("y", some 2), ("x", some 3)] (by decide)⟩

/-- C4 (Get/Add law): in every state whose counter is below `math.MaxUint64`, `Add(k, v)`
returns; afterwards `Get(k)` is `(v, true)`, `Get` of every other key is what it was, and
`Len()` has grown by exactly 1 if `k` was absent and is unchanged if `k` was present. -/
theorem C4_get_add_law (s : OrderedStringMap V) (hl : s.lastIndex < maxUint64)
    (fuel : Nat) (k : String) (v : Option V) :
    ∃ s1, Add fuel k v s = some s1 ∧ Get k s1 = (v, true) ∧
      (∀ a, a ≠ k → Get a s1 = Get a s) ∧
      ((Get k s).2 = false → Len s1 = Len s + 1) ∧
      ((Get k s).2 = true → Len s1 = Len s) := by
  refine ⟨_, Add_of_lt fuel k v hl, ?_⟩
  cases hk : mapLookup k s.data with
  | none =>
    have hkn : k ∉ keysOf s.data := (mapLookup_eq_none_iff k s.data).mp hk
    refine ⟨?_, ?_, ?_, ?_⟩
    · simp only [Get, mapLookup_mapInsert_self _ hk]
    · intro a ha
      simp only [Get, mapLookup_mapInsert_ne ha]
    · intro _
      simp only [Len, mapInsert, List.length_append, List.length_singleton]
    · intro h
      simp [Get, hk] at h
  | some e =>
    refine ⟨?_, ?_, ?_, ?_⟩
    · simp only [Get, mapLookup_mapUpdate_self, hk, Option.map_some']
    · intro a ha
      simp only [Get, mapLookup_mapUpdate_ne ha]
    · intro h
      simp [Get, hk] at h
    · intro _
      simp only [Len, mapUpdate, List.length_map]

theorem C4_get_add_law_witness :
    exampleMap.lastIndex < maxUint64 ∧
    ∃ s1, Add 0 "z" (some 7) exampleMap = some s1 ∧ Get "z" s1 = (some 7, true) ∧
      (∀ a, a ≠ "z" → Get a s1 = Get a exampleMap) ∧
      ((Get "z" exampleMap).2 = false → Len s1 = Len exampleMap + 1) ∧
      ((Get "z" exampleMap).2 = true → Len s1 = Len exampleMap) :=
  ⟨by decide, C4_get_add_law exampleMap (by decide) 0 "z" (some 7)⟩

theorem Get_found_iff (k : String) (s : OrderedStringMap V) :
    (Get k s).2 = true ↔ k ∈ keysOf s.data := by
  rw [← mapLookup_isSome_iff]
  unfold Get
  cases mapLookup k s.data <;> simp

theorem Get_not_found_iff (k : String) (s : OrderedStringMap V) :
    (Get k s).2 = false ↔ k ∉ keysOf s.data := by
  rw [← Get_found_iff]
  cases (Get k s).2 <;> simp

theorem GetKeys_Del {s : OrderedStringMap V} (h : Inv s) (k : String) :
    GetKeys (Del k s) = (GetKeys s).filter (fun a => decide (a ≠ k)) :=
  getKeys_of_ordered true (h.ordered.delete k)

/-- C5 (Delete removes): in every reachable state, after `Del(k)`, `Get(k)` reports
`found = false`, `k` does not occur in `GetKeys()`, and `Len()` is exactly one less than
before if `k` was present and equal to before if `k` was absent. -/
theorem C5_delete_removes (s : OrderedStringMap V) (hs : Reachable s) (k : String) :
    (Get k (Del k s)).2 = false ∧ k ∉ GetKeys (Del k s) ∧
    ((Get k s).2 = true → Len (Del k s) + 1 = Len s) ∧
    ((Get k s).2 = false → Len (Del k s) = Len s) := by
  have hinv := hs.inv
  refine ⟨?_, ?_, ?_, ?_⟩
  · simp only [Get, Del, mapLookup_mapDelete_self]
  · rw [GetKeys_Del hinv]
    simp
  · intro hk
    rw [Get_found_iff] at hk
    have h1 := (perm_filter_ne_append hinv.keys_nodup hk).length_eq
    rw [← keysOf_mapDelete] at h1
    simp only [keysOf, List.length_map, List.length_append, List.length_singleton] at h1
    simp only [Len, Del]
    omega
  · intro hk
    rw [Get_not_found_iff] at hk
    simp only [Len, Del, mapDelete_of_not_mem hk]

theorem C5_delete_removes_witness :
    Reachable exampleMap ∧
    ((Get "x" (Del "x" exampleMap)).2 = false ∧ "x" ∉ GetKeys (Del "x" exampleMap) ∧
      ((Get "x" exampleMap).2 = true → Len (Del "x" exampleMap) + 1 = Len exampleMap) ∧
      ((Get "x" exampleMap).2 = false → Len (Del "x" exampleMap) = Len exampleMap)) :=
  ⟨exampleMap_reachable, C5_delete_removes exampleMap exampleMap_reachable "x"⟩

/-- C6 (Delete frame): in every reachable state, `Del(k)` leaves the counter unchanged and
every other key's entry (value and stamp) unchanged; `GetKeys()` afterwards is `GetKeys()`
before with `k` erased, `Get` of every other key is unchanged, and if `k` is absent the
whole state is unchanged. -/
theorem C6_delete_frame (s : OrderedStringMap V) (hs : Reachable s) (k : String) :
    (Del k s).lastIndex = s.lastIndex ∧
    (∀ a, a ≠ k → mapLookup a (Del k s).data = mapLookup a s.data) ∧
    GetKeys (Del k s) = (GetKeys s).erase k ∧
    (∀ a, a ≠ k → Get a (Del k s) = Get a s) ∧
    ((Get k s).2 = false → Del k s = s) := by
  have hinv := hs.inv
  refine ⟨rfl, ?_, ?_, ?_, ?_⟩
  · intro a ha
    exact mapLookup_mapDelete_ne ha s.data
  · rw [GetKeys_Del hinv, erase_eq_filter_ne (GetKeys_nodup hinv)]
  · intro a ha
    simp only [Get, Del, mapLookup_mapDelete_ne ha]
  · intro hk
    rw [Get_not_found_iff] at hk
    simp only [Del, mapDelete_of_not_mem hk]

theorem C6_delete_frame_witness :
    Reachable exampleMap ∧
    ((Del "x" exampleMap).lastIndex = exampleMap.lastIndex ∧
      (∀ a, a ≠ "x" → mapLookup a (Del "x" exampleMap).data = mapLookup a exampleMap.data) ∧
      GetKeys (Del "x" exampleMap) = (GetKeys exampleMap).erase "x" ∧
      (∀ a, a ≠ "x" → Get a (Del "x" exampleMap) = Get a exampleMap) ∧
      ((Get "x" exampleMap).2 = false → Del "x" exampleMap = exampleMap)) :=
  ⟨exampleMap_reachable, C6_delete_frame exampleMap exampleMap_reachable "x"⟩

/-- C7 (uniqueness): in every reachable state, `GetKeys()` contains each key present in
the store exactly once and no other key, and its length equals `Len()`. -/
theorem C7_getKeys_unique (s : OrderedStringMap V) (hs : Reachable s) :
    (∀ k, (Get k s).2 = true → (GetKeys s).count k = 1) ∧
    (∀ k, (Get k s).2 = false → k ∉ GetKeys s) ∧
    (GetKeys s).length = Len s := by
  have hinv := hs.inv
  have hperm := getKeys_perm true s
  refine ⟨?_, ?_, getKeys_length true s⟩
  · intro k hk
    rw [Get_found_iff] at hk
    exact List.count_eq_one_of_mem (GetKeys_nodup hinv) (hperm.symm.subset hk)
  · intro k hk hmem
    rw [Get_not_found_iff] at hk
    exact hk (hperm.subset hmem)

theorem C7_getKeys_unique_witness :
    Reachable exampleMap ∧
    ((∀ k, (Get k exampleMap).2 = true → (GetKeys exampleMap).count k = 1) ∧
      (∀ k, (Get k exampleMap).2 = false → k ∉ GetKeys exampleMap) ∧
      (GetKeys exampleMap).length = Len exampleMap) :=
  ⟨exampleMap_reachable, C7_getKeys_unique exampleMap exampleMap_reachable⟩

/-- C8 (GetKeys is sorted by stamp): in every state (of a store with unique keys, as a Go
map is), `GetKeys()` returns all the present keys, each once (a permutation of the keys
of the store), and the stamps of the entries of the returned keys, read in the returned
order, are non-decreasing; in every reachable state they are strictly increasing, so the
least recently touched key comes first and the most recently touched last. -/
theorem C8_getKeys_sorted_by_stamp (s : OrderedStringMap V) (hk : (keysOf s.data).Nodup) :
    (GetKeys s).Perm (keysOf s.data) ∧
    (stampsInOrder s).length = s.data.length ∧
    (stampsInOrder s).Pairwise (fun a b => a ≤ b) ∧
    (Reachable s → (stampsInOrder s).Pairwise (fun a b => a < b)) := by
  refine ⟨getKeys_perm true s, ?_, List.pairwise_map.mpr (sortSlice_keys_le hk), ?_⟩
  · unfold stampsInOrder
    rw [List.length_map]
    exact getKeys_length true s
  · intro hs
    exact hs.inv.ordered.2.2

theorem C8_getKeys_sorted_by_stamp_witness :
    (keysOf exampleMap2.data).Nodup ∧ Reachable exampleMap2 ∧
    GetKeys exampleMap2 = ["y", "x"] ∧ stampsInOrder exampleMap2 = [2, 3] ∧
    (GetKeys exampleMap2).Perm (keysOf exampleMap2.data) ∧
    (stampsInOrder exampleMap2).length = exampleMap2.data.length ∧
    (stampsInOrder exampleMap2).Pairwise (fun a b => a ≤ b) ∧
    (stampsInOrder exampleMap2).Pairwise (fun a b => a < b) :=
  ⟨by decide, exampleMap2_reachable, by decide, by decide,
    (C8_getKeys_sorted_by_stamp exampleMap2 (by decide)).1,
    (C8_getKeys_sorted_by_stamp exampleMap2 (by decide)).2.1,
    (C8_getKeys_sorted_by_stamp exampleMap2 (by decide)).2.2.1,
    (C8_getKeys_sorted_by_stamp exampleMap2 (by decide)).2.2.2 exampleMap2_reachable⟩

/-- The store and counter updates of `Reindex` at `math.MaxUint64`, the lock left out: the
first call of `getIndex` renumbers the store from 1, the loop goes on from there, and the
order of the keys is kept.  (With its lock the source does not get that far:
`WithLock_Reindex_blocks`.) -/
theorem Reindex_exampleMapFull :
    Reindex 1 exampleMapFull =
      some { data := [("x", { value := some 3, index := 4 }),
                      ("y", { value := some 2, index := 3 })],
             lastIndex := 4 } ∧
    GetKeys exampleMapFull = ["y", "x"] ∧
    (Reindex 1 exampleMapFull).map GetKeys = some ["y", "x"] := by
  decide

/-- The store and counter updates of `Reindex`, the lock left out, keep the order of the
keys, the length and every value in every reachable state, whatever the counter. -/
theorem Reindex_updates_preserve_order (s : OrderedStringMap V) (hs : Reachable s)
    (fuel : Nat) (hf : 1 ≤ fuel) :
    ∃ s1, Reindex fuel s = some s1 ∧ GetKeys s1 = GetKeys s ∧ Len s1 = Len s ∧
      ∀ k, Get k s1 = Get k s := by
  obtain ⟨s1, h1, _, h3, h4, h5⟩ := Reindex_spec fuel hf s hs.inv
  refine ⟨s1, h1, h3, length_eq_of_keysOf_eq h4, ?_⟩
  intro k
  rw [Get_eq_valueAt, Get_eq_valueAt, h5 k]

/-- C10, as stated, fails: in the reachable state after `Add("x",1); Add("y",2); Add("x",3)`
(counter 3, two entries) a public `Reindex()` leaves the stamps 4 and 5, not 1 and 2. -/
theorem C10_reindex_not_from_one :
    Reachable exampleMap2 ∧
    ∃ s1, Reindex 0 exampleMap2 = some s1 ∧ stampsInOrder s1 = [4, 5] ∧
      stampsInOrder s1 ≠ List.range' 1 (Len exampleMap2) :=
  ⟨exampleMap2_reachable, _, rfl, by decide, by decide⟩

/-- C10, amended: in every reachable state with counter `L` and `N` entries,
`L + N ≤ math.MaxUint64`, a public `Reindex()` returns and afterwards the stamps of the
live entries are exactly `L + 1, ..., L + N`, assigned in the previous relative order of
the entries. -/
theorem C10_reindex_stamps_from_counter (s : OrderedStringMap V) (hs : Reachable s)
    (hl : s.lastIndex + Len s ≤ maxUint64) (fuel : Nat) :
    ∃ s1, Reindex fuel s = some s1 ∧ GetKeys s1 = GetKeys s ∧
      stampsInOrder s1 = List.range' (s.lastIndex + 1) (Len s) := by
  have hinv := hs.inv
  have hperm := getKeys_perm false s
  have hnd : (getKeys false s).Nodup := (hperm.nodup_iff).mpr hinv.keys_nodup
  have hloop := reindexLoop_of_le fuel (getKeys false s) s (fun a ha => hperm.subset ha)
    (by rw [getKeys_length]; exact hl)
  have hord : Ordered (renumber (getKeys false s) s.lastIndex s.data) (getKeys false s) :=
    ordered_renumber s.lastIndex hinv.keys_nodup hperm
  have hkeys : GetKeys
      ({ data := renumber (getKeys false s) s.lastIndex s.data,
         lastIndex := s.lastIndex + (getKeys false s).length } : OrderedStringMap V) =
      getKeys false s := getKeys_of_ordered true hord
  refine ⟨_, hloop, hkeys, ?_⟩
  unfold stampsInOrder
  rw [hkeys, stamps_renumber hnd s.lastIndex (fun a ha => hperm.subset ha), getKeys_length]
  rfl

theorem C10_reindex_stamps_from_counter_witness :
    Reachable exampleMap2 ∧ exampleMap2.lastIndex + Len exampleMap2 ≤ maxUint64 ∧
    ∃ s1, Reindex 0 exampleMap2 = some s1 ∧ GetKeys s1 = GetKeys exampleMap2 ∧
      stampsInOrder s1 = List.range' (exampleMap2.lastIndex + 1) (Len exampleMap2) :=
  ⟨exampleMap2_reachable, by decide,
    C10_reindex_stamps_from_counter exampleMap2 exampleMap2_reachable (by decide) 0⟩

theorem exampleCounting_step (n : Nat) (hn : n < maxUint64) :
    Add 0 "z" (some 0) (exampleCounting n) = some (exampleCounting (n + 1)) := by
  have hl : (exampleCounting n).lastIndex < maxUint64 := hn
  rw [Add_of_lt 0 "z" (some 0) hl]
  rfl

theorem exampleCounting_reachable (m : Nat) (hm : 4 + m ≤ maxUint64) :
    Reachable (exampleCounting (4 + m)) := by
  induction m with
  | zero => exact Reachable.add 0 "z" (some 0) exampleMap2_reachable (by decide) (by decide)
  | succ m ih =>
    have h := ih (by omega)
    have hsize : (exampleCounting (4 + (m + 1))).data.length < maxUint64 := by
      show 3 < maxUint64
      decide
    exact Reachable.add 0 "z" (some 0) h (exampleCounting_step (4 + m) (by omega)) hsize

/-- A state whose counter is `math.MaxUint64` is reachable: `Add("x",1); Add("y",2);
Add("x",3)`, then `Add("z",0)` until the counter is full, then `Del("z")`. -/
theorem exampleMapFull_reachable : Reachable exampleMapFull := by
  have h : Reachable (exampleCounting (4 + (maxUint64 - 4))) :=
    exampleCounting_reachable (maxUint64 - 4) (by decide)
  exact Reachable.del "z" h

/-- The method `Add` in a state that satisfies the invariant leaves the keys in strictly
increasing stamp order, the touched key last. -/
theorem Add_ordered (fuel : Nat) (k : String) (v : Option V) (o : OrderedStringMap V)
    (hinv : Inv o) (hf : o.lastIndex < maxUint64 ∨ 1 ≤ fuel) :
    ∃ o1, Add fuel k v o = some o1 ∧
      Ordered o1.data ((getKeys false o).filter (fun a => decide (a ≠ k)) ++ [k]) := by
  by_cases hk : k ∈ keysOf o.data
  · obtain ⟨e, he⟩ := (mapLookup_isSome_iff k o.data).mpr hk
    have hkeys0 : keysOf (mapUpdate k (fun e => { e with value := v }) o.data) = keysOf o.data :=
      keysOf_mapUpdate _ _ _
    have hord0 : Ordered (mapUpdate k (fun e => { e with value := v }) o.data)
        (getKeys false o) :=
      hinv.ordered.congr hkeys0 (stampOf_mapUpdate_value k v o.data)
    have hinv0 : Inv { o with data := mapUpdate k (fun e => { e with value := v }) o.data } := by
      refine Inv.of_ordered hord0 ?_ ?_ hinv.last_le ?_
      · intro a ha
        simp only [stampOf_mapUpdate_value]
        exact hinv.stamp_pos a (hkeys0 ▸ ha)
      · intro a ha
        simp only [stampOf_mapUpdate_value]
        exact hinv.stamp_le a (hkeys0 ▸ ha)
      · simp only [length_eq_of_keysOf_eq hkeys0]
        exact hinv.size_lt
    have hgk : getKeys false
        { o with data := mapUpdate k (fun e => { e with value := v }) o.data } =
        getKeys false o := getKeys_of_ordered false hord0
    obtain ⟨i, o1, hg, hp⟩ := getIndex_post fuel hinv0 hf
    have hk0 : k ∈ keysOf
        ({ o with data := mapUpdate k (fun e => { e with value := v }) o.data } :
          OrderedStringMap V).data := hkeys0.symm ▸ hk
    obtain ⟨_, hord2⟩ := touch_present hp hk0 hinv0.size_lt
    rw [hgk] at hord2
    refine ⟨{ o1 with data := mapUpdate k (fun e => { e with index := i }) o1.data }, ?_, hord2⟩
    unfold Add
    simp only [he, hg]
  · have he := (mapLookup_eq_none_iff k o.data).mpr hk
    obtain ⟨i, o1, hg, hp⟩ := getIndex_post fuel hinv hf
    obtain ⟨_, hord2⟩ := touch_absent v hp hk
    refine ⟨{ o1 with data := mapInsert k { value := v, index := i } o1.data }, ?_, hord2⟩
    unfold Add
    simp only [he, hg]

/-- The store and counter updates of `Add` at `math.MaxUint64`, the lock left out: the key
moves to the end of the order, no key is duplicated or lost, and the stamps stay pairwise
distinct.  (With its lock the source does not get that far: `WithLock_Add_blocks`.) -/
theorem Add_updates_at_overflow (s : OrderedStringMap V) (hs : Reachable s)
    (hl : s.lastIndex = maxUint64) (fuel : Nat) (hf : 1 ≤ fuel) (k : String) (v : Option V) :
    ∃ s1, Add fuel k v s = some s1 ∧ GetKeys s1 = (GetKeys s).erase k ++ [k] ∧
      (GetKeys s1).Nodup ∧ (∀ a, a ∈ GetKeys s1 ↔ a = k ∨ a ∈ GetKeys s) ∧
      (s1.data.map (fun p => p.2.index)).Nodup := by
  obtain ⟨s1, h1, hord⟩ := Add_ordered fuel k v s hs.inv (Or.inr hf)
  have hkeys : GetKeys s1 = (GetKeys s).filter (fun a => decide (a ≠ k)) ++ [k] :=
    getKeys_of_ordered true hord
  have hnd : (GetKeys s1).Nodup := ((getKeys_perm true s1).nodup_iff).mpr hord.1
  refine ⟨s1, h1, ?_, hnd, ?_, hord.stamps_nodup⟩
  · rw [hkeys, erase_eq_filter_ne (GetKeys_nodup hs.inv)]
  · intro a
    rw [hkeys]
    simp only [List.mem_append, List.mem_filter, List.mem_singleton, decide_eq_true_eq]
    constructor
    · rintro (⟨h, _⟩ | h)
      · exact Or.inr h
      · exact Or.inl h
    · rintro (h | h)
      · exact Or.inr h
      · by_cases hak : a = k
        · exact Or.inr hak
        · exact Or.inl ⟨h, hak⟩

/-- The store and counter updates of `Add("y", 9)` at `math.MaxUint64`, the lock left out,
evaluated: the store is renumbered `y = 1, x = 2`, then `y` receives the stamp 3 and the
order becomes `x, y`. -/
theorem Add_exampleMapFull :
    Add 1 "y" (some 9) exampleMapFull =
      some { data := [("x", { value := some 3, index := 2 }),
                      ("y", { value := some 9, index := 3 })],
             lastIndex := 3 } ∧
    GetKeys exampleMapFull = ["y", "x"] ∧
    (Add 1 "y" (some 9) exampleMapFull).map GetKeys = some ["x", "y"] := by
  decide

theorem index_of_mem {s : OrderedStringMap V} (h : Inv s)
    {p : String × orderedStringMapEntry V} (hp : p ∈ s.data) :
    stampOf s.data p.1 = p.2.index ∧ p.1 ∈ keysOf s.data :=
  ⟨stampOf_of_mem h.keys_nodup hp, List.mem_map_of_mem Prod.fst hp⟩

/-- C16 (stamp invariant): in every reachable state the stamps of the live entries are
pairwise distinct, each is at least 1, and each is at most the counter. -/
theorem C16_stamp_invariant (s : OrderedStringMap V) (hs : Reachable s) :
    (s.data.map (fun p => p.2.index)).Nodup ∧
    ∀ p ∈ s.data, 1 ≤ p.2.index ∧ p.2.index ≤ s.lastIndex := by
  have hinv := hs.inv
  refine ⟨hinv.ordered.stamps_nodup, ?_⟩
  intro p hp
  obtain ⟨h1, h2⟩ := index_of_mem hinv hp
  rw [← h1]
  exact ⟨hinv.stamp_pos _ h2, hinv.stamp_le _ h2⟩

theorem C16_stamp_invariant_witness :
    Reachable exampleMapFull ∧
    (exampleMapFull.data.map (fun p => p.2.index)).Nodup ∧
    ∀ p ∈ exampleMapFull.data, 1 ≤ p.2.index ∧ p.2.index ≤ exampleMapFull.lastIndex :=
  ⟨exampleMapFull_reachable, C16_stamp_invariant exampleMapFull exampleMapFull_reachable⟩

/-- C17 (normal stamp issuance): in every state whose counter is below `math.MaxUint64`,
`getIndex` changes nothing but the counter, which becomes its old value plus 1, and
returns that new value; the first stamp issued on a new map is 1; and in every reachable
state the issued stamp is strictly greater than the stamp of every live entry (below
`math.MaxUint64` these are the stamps before the call, which the call leaves alone; in
general they are the stamps the call leaves). -/
theorem C17_normal_stamp_issuance :
    (∀ (W : Type) (s : OrderedStringMap W) (fuel : Nat), s.lastIndex < maxUint64 →
      getIndex fuel s = some (s.lastIndex + 1, { s with lastIndex := s.lastIndex + 1 })) ∧
    (∀ (W : Type) (fuel : Nat) (cap : List Int),
      (getIndex fuel (NewOrderedStringMap cap : OrderedStringMap W)).map Prod.fst = some 1) ∧
    (∀ (W : Type) (s : OrderedStringMap W) (fuel : Nat), Reachable s →
      s.lastIndex < maxUint64 →
      ∃ i s1, getIndex fuel s = some (i, s1) ∧ ∀ p ∈ s.data, p.2.index < i) ∧
    (∀ (W : Type) (s : OrderedStringMap W) (fuel : Nat), Reachable s → 1 ≤ fuel →
      ∃ i s1, getIndex fuel s = some (i, s1) ∧ ∀ p ∈ s1.data, p.2.index < i) := by
  refine ⟨fun W s fuel hl => getIndex_of_lt fuel hl, ?_, ?_, ?_⟩
  · intro W fuel cap
    have hl : (NewOrderedStringMap cap : OrderedStringMap W).lastIndex < maxUint64 := by
      cases cap <;> exact (by decide : 0 < maxUint64)
    rw [getIndex_of_lt fuel hl]
    cases cap <;> rfl
  · intro W s fuel hs hl
    refine ⟨_, _, getIndex_of_lt fuel hl, ?_⟩
    intro p hp
    obtain ⟨h1, h2⟩ := index_of_mem hs.inv hp
    have := hs.inv.stamp_le _ h2
    rw [h1] at this
    omega
  · intro W s fuel hs hf
    obtain ⟨i, s1, hg, hp⟩ := getIndex_post fuel hs.inv (Or.inr hf)
    refine ⟨i, s1, hg, ?_⟩
    intro p hmem
    have hnd : (keysOf s1.data).Nodup := hp.ordered.1
    have h1 : stampOf s1.data p.1 = p.2.index := stampOf_of_mem hnd hmem
    have h2 : p.1 ∈ keysOf s.data := hp.keys ▸ List.mem_map_of_mem Prod.fst hmem
    rw [← h1]
    exact hp.stamp_lt _ h2

theorem C17_normal_stamp_issuance_witness :
    exampleMap2.lastIndex < maxUint64 ∧ Reachable exampleMap2 ∧
    Reachable exampleMapFull ∧ 1 ≤ 1 ∧
    getIndex 0 exampleMap2 = some (4, { exampleMap2 with lastIndex := 4 }) ∧
    (∃ i s1, getIndex 0 exampleMap2 = some (i, s1) ∧ ∀ p ∈ exampleMap2.data, p.2.index < i) ∧
    (∃ i s1, getIndex 1 exampleMapFull = some (i, s1) ∧ ∀ p ∈ s1.data, p.2.index < i) :=
  ⟨by decide, exampleMap2_reachable, exampleMapFull_reachable, Nat.le_refl 1,
    C17_normal_stamp_issuance.1 Nat exampleMap2 0 (by decide),
    C17_normal_stamp_issuance.2.2.1 Nat exampleMap2 0 exampleMap2_reachable (by decide),
    C17_normal_stamp_issuance.2.2.2 Nat exampleMapFull 1 exampleMapFull_reachable
      (Nat.le_refl 1)⟩

/-- C18 (overflow branch of stamp issuance): in every reachable state with counter
`math.MaxUint64` and `N` live entries, with the lock taken as a no-op, `getIndex` gives
the live entries the stamps `1, ..., N` in ascending order of their previous stamps,
returns `N + 1` and leaves the counter at `N + 1`; keys and values are untouched. -/
theorem C18_overflow_stamp_issuance (s : OrderedStringMap V) (hs : Reachable s)
    (hl : s.lastIndex = maxUint64) (fuel : Nat) :
    ∃ s1, getIndex (fuel + 1) s = some (Len s + 1, s1) ∧ s1.lastIndex = Len s + 1 ∧
      GetKeys s1 = GetKeys s ∧ stampsInOrder s1 = List.range' 1 (Len s) ∧
      ∀ k, Get k s1 = Get k s := by
  have hinv := hs.inv
  have hperm := getKeys_perm false s
  have hnd : (getKeys false s).Nodup := (hperm.nodup_iff).mpr hinv.keys_nodup
  have hord : Ordered (renumber (getKeys false s) 0 s.data) (getKeys false s) :=
    ordered_renumber 0 hinv.keys_nodup hperm
  have hkeys : GetKeys
      ({ data := renumber (getKeys false s) 0 s.data, lastIndex := s.data.length + 1 } :
        OrderedStringMap V) = getKeys false s := getKeys_of_ordered true hord
  refine ⟨_, getIndex_of_eq fuel hl hinv.size_lt, rfl, hkeys, ?_, ?_⟩
  · unfold stampsInOrder
    rw [hkeys, stamps_renumber hnd 0 (fun a ha => hperm.subset ha), getKeys_length]
    rfl
  · intro k
    rw [Get_eq_valueAt, Get_eq_valueAt]
    simp only [valueAt_renumber]

theorem C18_overflow_stamp_issuance_witness :
    Reachable exampleMapFull ∧ exampleMapFull.lastIndex = maxUint64 ∧
    ∃ s1, getIndex (0 + 1) exampleMapFull = some (Len exampleMapFull + 1, s1) ∧
      s1.lastIndex = Len exampleMapFull + 1 ∧
      GetKeys s1 = GetKeys exampleMapFull ∧
      stampsInOrder s1 = List.range' 1 (Len exampleMapFull) ∧
      ∀ k, Get k s1 = Get k exampleMapFull :=
  ⟨exampleMapFull_reachable, rfl,
    C18_overflow_stamp_issuance exampleMapFull exampleMapFull_reachable rfl 0⟩

/-- The call of `getIndex` at `math.MaxUint64`, evaluated on a store that enumerates `x`
(stamp 3) before `y` (stamp 2): `y` becomes 1, `x` becomes 2, and 3 is returned. -/
theorem getIndex_exampleMapFull :
    getIndex 1 exampleMapFull =
      some (3, { data := [("x", { value := some 3, index := 2 }),
                          ("y", { value := some 2, index := 1 })],
                 lastIndex := 3 }) := by
  decide

/-- Below `math.MaxUint64 - N`, the method `Reindex` is `renumber` from the counter. -/
theorem Reindex_of_le (fuel : Nat) (s : OrderedStringMap V)
    (hl : s.lastIndex + s.data.length ≤ maxUint64) :
    Reindex fuel s = some
      { data := renumber (getKeys false s) s.lastIndex s.data,
        lastIndex := s.lastIndex + s.data.length } := by
  have h := reindexLoop_of_le fuel (getKeys false s) s
    (fun a ha => (getKeys_perm false s).subset ha) (by rw [getKeys_length]; exact hl)
  rw [getKeys_length] at h
  exact h

/-- C20 (effect of a public Reindex on the counter): in every reachable state with counter
`L` and `N` live entries, `L + N < math.MaxUint64`, `Reindex()` returns, gives the live
entries the stamps `L + 1, ..., L + N` in ascending order of their previous stamps, and
leaves the counter at `L + N`. -/
theorem C20_reindex_advances_counter (s : OrderedStringMap V) (hs : Reachable s)
    (hl : s.lastIndex + Len s < maxUint64) (fuel : Nat) :
    ∃ s1, Reindex fuel s = some s1 ∧ s1.lastIndex = s.lastIndex + Len s ∧
      GetKeys s1 = GetKeys s ∧
      stampsInOrder s1 = List.range' (s.lastIndex + 1) (Len s) := by
  have hinv := hs.inv
  have hperm := getKeys_perm false s
  have hnd : (getKeys false s).Nodup := (hperm.nodup_iff).mpr hinv.keys_nodup
  have hord : Ordered (renumber (getKeys false s) s.lastIndex s.data) (getKeys false s) :=
    ordered_renumber s.lastIndex hinv.keys_nodup hperm
  have hkeys : GetKeys
      ({ data := renumber (getKeys false s) s.lastIndex s.data,
         lastIndex := s.lastIndex + s.data.length } : OrderedStringMap V) =
      getKeys false s := getKeys_of_ordered true hord
  refine ⟨_, Reindex_of_le fuel s (Nat.le_of_lt hl), rfl, hkeys, ?_⟩
  unfold stampsInOrder
  rw [hkeys, stamps_renumber hnd s.lastIndex (fun a ha => hperm.subset ha), getKeys_length]
  rfl

theorem C20_reindex_advances_counter_witness :
    Reachable exampleMap2 ∧ exampleMap2.lastIndex + Len exampleMap2 < maxUint64 ∧
    ∃ s1, Reindex 0 exampleMap2 = some s1 ∧
      s1.lastIndex = exampleMap2.lastIndex + Len exampleMap2 ∧
      GetKeys s1 = GetKeys exampleMap2 ∧
      stampsInOrder s1 = List.range' (exampleMap2.lastIndex + 1) (Len exampleMap2) :=
  ⟨exampleMap2_reachable, by decide,
    C20_reindex_advances_counter exampleMap2 exampleMap2_reachable (by decide) 0⟩

/-- C19 (GetKeys is deterministic): in every reachable state, whatever the order `items`
in which the store enumerates its entries and whatever list `sorted` the sort makes of
them (a permutation of `items` in which no item is `less` than an earlier one), the keys
returned are those of `GetKeys()`. -/
theorem C19_getKeys_deterministic (s : OrderedStringMap V) (hs : Reachable s)
    (items sorted : List (String × orderedStringMapEntry V))
    (henum : items.Perm s.data) (hperm : sorted.Perm items)
    (hsorted : sorted.Pairwise (fun a b => less b a = false)) :
    sorted.map Prod.fst = GetKeys s := by
  have hinv := hs.inv
  have hp : sorted.Perm s.data := hperm.trans henum
  have hstamps : (sorted.map Prod.fst).map (stampOf s.data) =
      sorted.map (fun p => p.2.index) := by
    rw [List.map_map]
    apply List.map_congr_left
    intro p hmem
    exact stampOf_of_mem hinv.keys_nodup (hp.subset hmem)
  have hle : (sorted.map (fun p => p.2.index)).Pairwise (fun a b => a ≤ b) := by
    refine List.pairwise_map.mpr (hsorted.imp ?_)
    intro a b hab
    simpa [less] using hab
  have hne : (sorted.map (fun p => p.2.index)).Nodup :=
    (((hp.map (fun p => p.2.index)).nodup_iff).mpr hinv.ordered.stamps_nodup)
  have hord : Ordered s.data (sorted.map Prod.fst) := by
    refine ⟨hinv.keys_nodup, hp.map Prod.fst, ?_⟩
    rw [hstamps]
    exact (hle.and hne).imp (fun hab => Nat.lt_of_le_of_ne hab.1 hab.2)
  exact (getKeys_of_ordered true hord).symm

theorem C19_getKeys_deterministic_witness :
    Reachable exampleMap2 ∧
    ([("y", { value := some 2, index := 2 }), ("x", { value := some 3, index := 3 })] :
      List (String × orderedStringMapEntry Nat)).Perm exampleMap2.data ∧
    ([("y", { value := some 2, index := 2 }), ("x", { value := some 3, index := 3 })] :
      List (String × orderedStringMapEntry Nat)).map Prod.fst = GetKeys exampleMap2 ∧
    (sortSlice exampleMap2.data.reverse).map Prod.fst = GetKeys exampleMap2 :=
  ⟨exampleMap2_reachable, List.Perm.swap _ _ _,
    C19_getKeys_deterministic exampleMap2 exampleMap2_reachable exampleMap2.data
      [("y", { value := some 2, index := 2 }), ("x", { value := some 3, index := 3 })]
      (List.Perm.refl _) (List.Perm.swap _ _ _) (by decide),
    C19_getKeys_deterministic exampleMap2 exampleMap2_reachable exampleMap2.data.reverse
      (sortSlice exampleMap2.data.reverse) (List.reverse_perm _) (sortSlice_perm _)
      (by decide)⟩

/-- C13 (construction): `NewOrderedStringMap`, with or without a capacity hint, returns a
map with `Len() == 0`, `GetKeys()` empty, `Get(k) == (nil, false)` for every key and
counter 0; and for every capacity hint `c >= 0` the map `NewOrderedStringMap(c)` is the
map `NewOrderedStringMap()`, so every sequence of calls returns the same values on both. -/
theorem C13_construction :
    (∀ (W : Type) (cap : List Int),
      Len (NewOrderedStringMap cap : OrderedStringMap W) = 0 ∧
      GetKeys (NewOrderedStringMap cap : OrderedStringMap W) = [] ∧
      (∀ k, Get k (NewOrderedStringMap cap : OrderedStringMap W) = (none, false)) ∧
      (NewOrderedStringMap cap : OrderedStringMap W).lastIndex = 0) ∧
    (∀ (W : Type) (c : Int), 0 ≤ c →
      (NewOrderedStringMap [c] : OrderedStringMap W) = NewOrderedStringMap [] ∧
      ∀ (fuel : Nat) (ops : List (Op W)),
        runOps fuel ops (NewOrderedStringMap [c]) = runOps fuel ops (NewOrderedStringMap [])) := by
  refine ⟨?_, ?_⟩
  · intro W cap
    cases cap <;> exact ⟨rfl, rfl, fun _ => rfl, rfl⟩
  · intro W c _
    exact ⟨rfl, fun _ _ => rfl⟩

theorem C13_construction_witness :
    (0 : Int) ≤ 16 ∧
    (NewOrderedStringMap [16] : OrderedStringMap Nat) = NewOrderedStringMap [] ∧
    ∀ (fuel : Nat) (ops : List (Op Nat)),
      runOps fuel ops (NewOrderedStringMap [16]) = runOps fuel ops (NewOrderedStringMap []) :=
  ⟨by decide, C13_construction.2 Nat 16 (by decide)⟩

theorem jsonSortKeys_perm (d : List (String × orderedStringMapEntry V)) :
    (jsonSortKeys d).Perm d :=
  List.perm_insertionSort _ d

theorem jsonMembers_cons {E : Type} (lib : JsonLibrary V E)
    (p : String × orderedStringMapEntry V) (rest : List (String × orderedStringMapEntry V)) :
    jsonMembers lib (p :: rest) =
      match p.2.MarshalJSON lib with
      | Except.error err => Except.error (lib.marshalerError err)
      | Except.ok t =>
        match jsonMembers lib rest with
        | Except.error err => Except.error err
        | Except.ok ms => Except.ok ((p.1, t) :: ms) := rfl

/-- When the encoding succeeds, the members are, entry by entry, the key and the encoding
of the value. -/
theorem jsonMembers_ok {E : Type} (lib : JsonLibrary V E)
    (l : List (String × orderedStringMapEntry V)) (ms : List (String × String))
    (h : jsonMembers lib l = Except.ok ms) :
    List.Forall₂ (fun p m => m.1 = p.1 ∧ lib.marshalValue p.2.value = Except.ok m.2) l ms := by
  induction l generalizing ms with
  | nil =>
    simp only [jsonMembers, Except.ok.injEq] at h
    subst h
    exact List.Forall₂.nil
  | cons p rest ih =>
    rw [jsonMembers_cons] at h
    cases hv : lib.marshalValue p.2.value with
    | error err => simp [orderedStringMapEntry.MarshalJSON, hv] at h
    | ok t =>
      cases hr : jsonMembers lib rest with
      | error err => simp [orderedStringMapEntry.MarshalJSON, hv, hr] at h
      | ok ms1 =>
        simp only [orderedStringMapEntry.MarshalJSON, hv, hr, Except.ok.injEq] at h
        subst h
        exact List.Forall₂.cons ⟨rfl, hv⟩ (ih ms1 hr)

/-- When the encoding fails, the error is the wrapped error of a stored value. -/
theorem jsonMembers_error {E : Type} (lib : JsonLibrary V E)
    (l : List (String × orderedStringMapEntry V)) (err : E)
    (h : jsonMembers lib l = Except.error err) :
    ∃ p ∈ l, ∃ inner, lib.marshalValue p.2.value = Except.error inner ∧
      err = lib.marshalerError inner := by
  induction l with
  | nil => simp [jsonMembers] at h
  | cons p rest ih =>
    rw [jsonMembers_cons] at h
    cases hv : lib.marshalValue p.2.value with
    | error inner =>
      simp only [orderedStringMapEntry.MarshalJSON, hv, Except.error.injEq] at h
      exact ⟨p, List.mem_cons_self p rest, inner, hv, h.symm⟩
    | ok t =>
      cases hr : jsonMembers lib rest with
      | error err1 =>
        simp only [orderedStringMapEntry.MarshalJSON, hv, hr, Except.error.injEq] at h
        subst h
        obtain ⟨q, hq, inner, h1, h2⟩ := ih hr
        exact ⟨q, List.mem_cons_of_mem p hq, inner, h1, h2⟩
      | ok ms1 => simp [orderedStringMapEntry.MarshalJSON, hv, hr] at h

/-- When a stored value cannot be encoded, the encoding fails. -/
theorem jsonMembers_fails {E : Type} (lib : JsonLibrary V E)
    (l : List (String × orderedStringMapEntry V))
    (h : ∃ p ∈ l, ∃ inner, lib.marshalValue p.2.value = Except.error inner) :
    ∃ err, jsonMembers lib l = Except.error err := by
  induction l with
  | nil =>
    obtain ⟨p, hp, _⟩ := h
    cases hp
  | cons q rest ih =>
    rw [jsonMembers_cons]
    cases hv : lib.marshalValue q.2.value with
    | error inner =>
      exact ⟨lib.marshalerError inner, by simp only [orderedStringMapEntry.MarshalJSON, hv]⟩
    | ok t =>
      obtain ⟨p, hp, inner, hin⟩ := h
      rcases List.mem_cons.mp hp with rfl | hmem
      · rw [hv] at hin
        cases hin
      · obtain ⟨err, herr⟩ := ih ⟨p, hmem, inner, hin⟩
        exact ⟨err, by simp only [orderedStringMapEntry.MarshalJSON, hv, herr]⟩

theorem jsonMembers_keys {E : Type} (lib : JsonLibrary V E)
    {l : List (String × orderedStringMapEntry V)} {ms : List (String × String)}
    (h : List.Forall₂ (fun p m => m.1 = p.1 ∧ lib.marshalValue p.2.value = Except.ok m.2) l ms) :
    ms.map Prod.fst = l.map Prod.fst := by
  induction h with
  | nil => rfl
  | cons h _ ih => simp only [List.map_cons, h.1, ih]

theorem jsonMembers_mem {E : Type} (lib : JsonLibrary V E)
    {l : List (String × orderedStringMapEntry V)} {ms : List (String × String)}
    (h : List.Forall₂ (fun p m => m.1 = p.1 ∧ lib.marshalValue p.2.value = Except.ok m.2) l ms)
    {m : String × String} (hm : m ∈ ms) :
    ∃ p ∈ l, m.1 = p.1 ∧ lib.marshalValue p.2.value = Except.ok m.2 := by
  induction h with
  | nil => cases hm
  | cons h _ ih =>
    rcases List.mem_cons.mp hm with rfl | hmem
    · exact ⟨_, List.mem_cons_self _ _, h⟩
    · obtain ⟨p, hp, hpm⟩ := ih hmem
      exact ⟨p, List.mem_cons_of_mem _ hp, hpm⟩

theorem MarshalJSON_error_iff {E : Type} (lib : JsonLibrary V E) (o : OrderedStringMap V)
    (err : E) :
    OrderedStringMap.MarshalJSON lib o = Except.error err ↔
      marshalMembers lib o = Except.error err := by
  unfold OrderedStringMap.MarshalJSON
  cases marshalMembers lib o <;> simp

/-- C14, as stated, fails: for a map holding a channel under `c`, `MarshalJSON` returns
the library's `MarshalerError` around the `UnsupportedTypeError` of the value, which is
not the error of encoding any stored value. -/
theorem C14_error_is_wrapped :
    OrderedStringMap.MarshalJSON exampleJson exampleJsonBad =
      Except.error (GoError.marshalerError GoError.unsupportedType) ∧
    exampleJson.marshalValue (some GoValue.chan) = Except.error GoError.unsupportedType ∧
    ¬ ∃ p ∈ exampleJsonBad.data,
      exampleJson.marshalValue p.2.value =
        Except.error (GoError.marshalerError GoError.unsupportedType) := by
  refine ⟨rfl, rfl, ?_⟩
  rintro ⟨p, hp, h⟩
  simp only [exampleJsonBad, List.mem_cons, List.mem_singleton, List.not_mem_nil, or_false] at hp
  rcases hp with rfl | rfl
  · simp [exampleJson] at h
  · simp [exampleJson] at h

/-- C14, amended: for every state (of a store with unique keys), `MarshalJSON` yields a
JSON object whose member names are exactly the present keys and whose member for a key is
the JSON encoding of the value stored at that key alone; it fails if and only if encoding
some stored value fails, and the error it returns is that value's error wrapped by the
library in a `MarshalerError`.  The last part is the scenario: the map holding
`{"a": 1, "b": "x"}` is written as that text. -/
theorem C14_marshal_values_only :
    (∀ (W E : Type) (lib : JsonLibrary W E) (o : OrderedStringMap W),
      (keysOf o.data).Nodup →
      (∀ ms, marshalMembers lib o = Except.ok ms →
        OrderedStringMap.MarshalJSON lib o = Except.ok (jsonObject lib ms) ∧
        (ms.map Prod.fst).Perm (keysOf o.data) ∧
        ∀ m ∈ ms, ∃ e, mapLookup m.1 o.data = some e ∧
          lib.marshalValue e.value = Except.ok m.2) ∧
      ((∃ err, OrderedStringMap.MarshalJSON lib o = Except.error err) ↔
        ∃ p ∈ o.data, ∃ inner, lib.marshalValue p.2.value = Except.error inner) ∧
      (∀ err, OrderedStringMap.MarshalJSON lib o = Except.error err →
        ∃ p ∈ o.data, ∃ inner, lib.marshalValue p.2.value = Except.error inner ∧
          err = lib.marshalerError inner)) ∧
    OrderedStringMap.MarshalJSON exampleJson exampleJsonMap =
      Except.ok "\x7b\"a\":1,\"b\":\"x\"\x7d" := by
  refine ⟨?_, rfl⟩
  intro W E lib o hnd
  have hperm := jsonSortKeys_perm o.data
  refine ⟨?_, ?_, ?_⟩
  · intro ms hms
    have hall := jsonMembers_ok lib _ ms hms
    refine ⟨by simp only [OrderedStringMap.MarshalJSON, hms], ?_, ?_⟩
    · rw [jsonMembers_keys lib hall]
      exact hperm.map Prod.fst
    · intro m hm
      obtain ⟨p, hp, hpm⟩ := jsonMembers_mem lib hall hm
      refine ⟨p.2, ?_, hpm.2⟩
      rw [hpm.1]
      exact mapLookup_of_mem hnd (hperm.subset hp)
  · constructor
    · rintro ⟨err, herr⟩
      rw [MarshalJSON_error_iff] at herr
      obtain ⟨p, hp, inner, h1, _⟩ := jsonMembers_error lib _ err herr
      exact ⟨p, hperm.subset hp, inner, h1⟩
    · rintro ⟨p, hp, inner, h1⟩
      obtain ⟨err, herr⟩ := jsonMembers_fails lib (jsonSortKeys o.data)
        ⟨p, hperm.symm.subset hp, inner, h1⟩
      exact ⟨err, (MarshalJSON_error_iff lib o err).mpr herr⟩
  · intro err herr
    rw [MarshalJSON_error_iff] at herr
    obtain ⟨p, hp, inner, h1, h2⟩ := jsonMembers_error lib _ err herr
    exact ⟨p, hperm.subset hp, inner, h1, h2⟩

theorem C14_marshal_values_only_witness :
    (keysOf exampleJsonMap.data).Nodup ∧
    marshalMembers exampleJson exampleJsonMap = Except.ok [("a", "1"), ("b", "\"x\"")] ∧
    OrderedStringMap.MarshalJSON exampleJson exampleJsonMap =
      Except.ok (jsonObject exampleJson [("a", "1"), ("b", "\"x\"")]) ∧
    ([("a", "1"), ("b", "\"x\"")].map Prod.fst).Perm (keysOf exampleJsonMap.data) ∧
    ∀ m ∈ [("a", "1"), ("b", "\"x\"")], ∃ e, mapLookup m.1 exampleJsonMap.data = some e ∧
      exampleJson.marshalValue e.value = Except.ok m.2 :=
  ⟨by decide, rfl,
    (C14_marshal_values_only.1 GoValue GoError exampleJson exampleJsonMap (by decide)).1
      [("a", "1"), ("b", "\"x\"")] rfl⟩

theorem reindexWith_of_held (gi : Guarded V → Outcome (Nat × Guarded V)) (g : Guarded V)
    (h : g.lock.writer = true) : WithLock.reindexWith gi g = Outcome.blocked := by
  unfold WithLock.reindexWith RWMutex.Lock
  simp [h]

/-- At `math.MaxUint64`, a call of `getIndex` made while the exclusive lock is held never
returns: the nested `Reindex` waits for that lock. -/
theorem getIndex_blocks_of_held (fuel : Nat) (g : Guarded V) (h : g.lock.writer = true)
    (hl : g.map.lastIndex = maxUint64) :
    WithLock.getIndex (fuel + 1) g = Outcome.blocked := by
  unfold WithLock.getIndex
  rw [if_pos hl, reindexWith_of_held _ _ (by simpa [Guarded.access] using h)]
  rfl

/-- At `math.MaxUint64`, the method `Add` called with the lock free never returns, whatever
the fuel: it takes the lock and `getIndex` calls `Reindex`, which waits for it. -/
theorem WithLock_Add_blocks (fuel : Nat) (k : String) (v : Option V) (o : OrderedStringMap V)
    (hl : o.lastIndex = maxUint64) :
    WithLock.Add (fuel + 1) k v (unlocked o) = Outcome.blocked := by
  unfold WithLock.Add
  have hlock : (unlocked o).lock.Lock = some { writer := true, readers := 0 } := rfl
  rw [hlock]
  cases hk : mapLookup k (unlocked o).map.data with
  | none =>
    simp only
    rw [getIndex_blocks_of_held fuel _ rfl hl]
    rfl
  | some e =>
    simp only
    rw [getIndex_blocks_of_held fuel _ rfl hl]
    rfl

/-- At `math.MaxUint64`, a public `Reindex` of a non-empty map called with the lock free
never returns: the first `getIndex` of its loop calls `Reindex` again. -/
theorem WithLock_Reindex_blocks (fuel : Nat) (o : OrderedStringMap V)
    (hl : o.lastIndex = maxUint64) (hne : o.data ≠ []) :
    WithLock.Reindex (fuel + 1) (unlocked o) = Outcome.blocked := by
  unfold WithLock.Reindex WithLock.reindexWith
  have hlock : (unlocked o).lock.Lock = some { writer := true, readers := 0 } := rfl
  rw [hlock]
  cases hk : getKeys false o with
  | nil =>
    have := getKeys_length false o
    rw [hk] at this
    exact absurd (List.length_eq_zero.mp this.symm) hne
  | cons k ks =>
    simp only [WithLock.getKeys, Bool.false_eq_true, if_false, Outcome.bind]
    have hk2 : getKeys false (unlocked o).map = k :: ks := hk
    rw [hk2]
    unfold WithLock.reindexLoop
    rw [getIndex_blocks_of_held fuel _ rfl hl]

/-- Below `math.MaxUint64`, the method `Add` called with the lock free returns with the
lock free, its accesses are all made under the exclusive lock, and it does to the store
and the counter what the model without the lock does. -/
theorem WithLock_Add_of_lt (fuel : Nat) (k : String) (v : Option V) (o : OrderedStringMap V)
    (hl : o.lastIndex < maxUint64) :
    ∃ g1, WithLock.Add fuel k v (unlocked o) = Outcome.returned g1 ∧
      g1.lock = { writer := false, readers := 0 } ∧ Add fuel k v o = some g1.map ∧
      disciplined g1.log = true := by
  have hne : o.lastIndex ≠ maxUint64 := Nat.ne_of_lt hl
  have hgi : ∀ g : Guarded V, g.map.lastIndex = o.lastIndex →
      WithLock.getIndex fuel g =
        Outcome.returned (WithLock.increment (Guarded.access false g)) := by
    intro g hg
    cases fuel with
    | zero => simp only [WithLock.getIndex, hg, hne, if_false]
    | succ f => simp only [WithLock.getIndex, hg, hne, if_false]
  rw [Add_of_lt fuel k v hl]
  unfold WithLock.Add
  have hlock : (unlocked o).lock.Lock = some { writer := true, readers := 0 } := rfl
  rw [hlock]
  cases hk : mapLookup k o.data with
  | none =>
    have hk2 : mapLookup k (unlocked o).map.data = none := hk
    simp only [hk2]
    rw [hgi _ rfl]
    refine ⟨_, rfl, rfl, ?_, rfl⟩
    simp only [Outcome.bind, WithLock.increment, Guarded.access, unlocked, increment_of_lt hl]
  | some e =>
    have hk2 : mapLookup k (unlocked o).map.data = some e := hk
    simp only [hk2]
    rw [hgi _ rfl]
    refine ⟨_, rfl, rfl, ?_, rfl⟩
    have hl2 : ({ o with data := mapUpdate k (fun e => { e with value := v }) o.data } :
        OrderedStringMap V).lastIndex < maxUint64 := hl
    simp only [Outcome.bind, WithLock.increment, Guarded.access, unlocked, increment_of_lt hl2]

/-- The method `Len` called with the lock free reads the store with no lock held. -/
theorem WithLock_Len_unguarded (o : OrderedStringMap V) :
    WithLock.Len (unlocked o) =
      Outcome.returned (Len o,
        { unlocked o with
          log := [{ write := false, lock := { writer := false, readers := 0 } }] }) ∧
    disciplined (accessesOf Prod.snd (WithLock.Len (unlocked o))) = false :=
  ⟨rfl, rfl⟩

/-- The method `MarshalJSON` called with the lock free reads the store with no lock held. -/
theorem WithLock_MarshalJSON_unguarded {E : Type} (lib : JsonLibrary V E)
    (o : OrderedStringMap V) :
    disciplined (accessesOf Prod.snd (WithLock.MarshalJSON lib (unlocked o))) = false :=
  rfl

/-- The methods `Get`, `GetKeys` and `Del` called with the lock free return with the lock
free and make their accesses under the lock. -/
theorem WithLock_Get_GetKeys_Del_guarded (k : String) (o : OrderedStringMap V) :
    disciplined (accessesOf Prod.snd (WithLock.Get k (unlocked o))) = true ∧
    disciplined (accessesOf Prod.snd (WithLock.GetKeys (unlocked o))) = true ∧
    disciplined (accessesOf id (WithLock.Del k (unlocked o))) = true ∧
    (∃ r, WithLock.Get k (unlocked o) = Outcome.returned r ∧ r.1 = Get k o ∧
      r.2.lock = { writer := false, readers := 0 }) ∧
    (∃ r, WithLock.GetKeys (unlocked o) = Outcome.returned r ∧ r.1 = GetKeys o ∧
      r.2.lock = { writer := false, readers := 0 }) ∧
    (∃ g, WithLock.Del k (unlocked o) = Outcome.returned g ∧ g.map = Del k o ∧
      g.lock = { writer := false, readers := 0 }) :=
  ⟨rfl, rfl, rfl, ⟨_, rfl, rfl, rfl⟩, ⟨_, rfl, rfl, rfl⟩, ⟨_, rfl, rfl, rfl⟩⟩

/-- C12 fails on the code: in the reachable state `exampleMapFull` (counter at
`math.MaxUint64`, lock free) the call `Add("z", 0)` takes the exclusive lock and never
returns, because `getIndex` calls `Reindex`, which waits for the lock that `Add` holds;
a public `Reindex()` blocks in the same way; below `math.MaxUint64` both return with the
lock released. -/
theorem C12_add_blocks_at_overflow :
    Reachable exampleMapFull ∧ exampleMapFull.lastIndex = maxUint64 ∧
    WithLock.Add 1 "z" (some 0) (unlocked exampleMapFull) = Outcome.blocked ∧
    WithLock.Add 1 "x" (some 0) (unlocked exampleMapFull) = Outcome.blocked ∧
    WithLock.Reindex 1 (unlocked exampleMapFull) = Outcome.blocked ∧
    (∃ g, WithLock.Add 1 "z" (some 0) (unlocked exampleMap2) = Outcome.returned g ∧
      g.lock = { writer := false, readers := 0 }) ∧
    (∃ g, WithLock.Reindex 1 (unlocked exampleMap2) = Outcome.returned g ∧
      g.lock = { writer := false, readers := 0 }) :=
  ⟨exampleMapFull_reachable, rfl, by decide, by decide, by decide,
    ⟨_, rfl, rfl⟩, ⟨_, rfl, rfl⟩⟩

/-- C15 fails on the code: `Len` and `MarshalJSON` read the store with no lock held, while
`Add`, `Del` and `Reindex` make every access under the exclusive lock and `Get` and
`GetKeys` under the shared lock (here on the state after `Add("x",1); Add("y",2);
Add("x",3)`, called with the lock free). -/
theorem C15_len_and_marshal_take_no_lock :
    accessesOf Prod.snd (WithLock.Len (unlocked exampleMap2)) =
      [{ write := false, lock := { writer := false, readers := 0 } }] ∧
    disciplined (accessesOf Prod.snd (WithLock.Len (unlocked exampleMap2))) = false ∧
    accessesOf Prod.snd (WithLock.MarshalJSON exampleJson (unlocked exampleJsonMap)) =
      [{ write := false, lock := { writer := false, readers := 0 } }] ∧
    disciplined
      (accessesOf Prod.snd (WithLock.MarshalJSON exampleJson (unlocked exampleJsonMap))) =
      false ∧
    disciplined (accessesOf id (WithLock.Add 0 "z" (some 0) (unlocked exampleMap2))) = true ∧
    disciplined (accessesOf id (WithLock.Del "x" (unlocked exampleMap2))) = true ∧
    disciplined (accessesOf id (WithLock.Reindex 0 (unlocked exampleMap2))) = true ∧
    disciplined (accessesOf Prod.snd (WithLock.Get "x" (unlocked exampleMap2))) = true ∧
    disciplined (accessesOf Prod.snd (WithLock.GetKeys (unlocked exampleMap2))) = true ∧
    accessesOf Prod.snd (WithLock.Get "x" (unlocked exampleMap2)) ≠ [] ∧
    accessesOf id (WithLock.Add 0 "z" (some 0) (unlocked exampleMap2)) ≠ [] := by
  refine ⟨rfl, rfl, rfl, rfl, ?_, ?_, ?_, ?_, ?_, ?_, ?_⟩ <;> decide

theorem exampleMapNearFull_reachable : Reachable exampleMapNearFull := by
  have h : Reachable (exampleCounting (4 + (maxUint64 - 5))) :=
    exampleCounting_reachable (maxUint64 - 5) (by decide)
  exact Reachable.del "z" h

/-- Below `math.MaxUint64`, the method `getIndex` with the lock state returns the counter
plus 1, writes only the counter, and leaves the lock as it found it. -/
theorem WithLock_getIndex_of_lt (fuel : Nat) (g : Guarded V)
    (hl : g.map.lastIndex < maxUint64) :
    WithLock.getIndex fuel g =
      Outcome.returned (g.map.lastIndex + 1,
        { map := { g.map with lastIndex := g.map.lastIndex + 1 },
          lock := g.lock,
          log := g.log ++ [{ write := false, lock := g.lock }, { write := true, lock := g.lock }] }) := by
  have hne : g.map.lastIndex ≠ maxUint64 := Nat.ne_of_lt hl
  cases fuel with
  | zero =>
    simp only [WithLock.getIndex, hne, if_false, WithLock.increment, Guarded.access,
      increment_of_lt hl, List.append_assoc, List.singleton_append]
  | succ f =>
    simp only [WithLock.getIndex, hne, if_false, WithLock.increment, Guarded.access,
      increment_of_lt hl, List.append_assoc, List.singleton_append]

theorem disciplined_append (l1 l2 : List Access) :
    disciplined (l1 ++ l2) = (disciplined l1 && disciplined l2) := by
  simp [disciplined, List.all_append]

/-- While the counter stays below `math.MaxUint64`, the loop of `Reindex` run under the
exclusive lock returns, does to the store and the counter what `renumber` does, keeps the
lock, and makes every access under it. -/
theorem WithLock_reindexLoop_of_le (fuel : Nat) (ks : List String) (g : Guarded V)
    (hk : ∀ a ∈ ks, a ∈ keysOf g.map.data)
    (hl : g.map.lastIndex + ks.length ≤ maxUint64)
    (hw : g.lock.writer = true) (hd : disciplined g.log = true) :
    ∃ g1, WithLock.reindexLoop (WithLock.getIndex fuel) ks g = Outcome.returned g1 ∧
      g1.map = { data := renumber ks g.map.lastIndex g.map.data,
                 lastIndex := g.map.lastIndex + ks.length } ∧
      g1.lock = g.lock ∧ disciplined g1.log = true := by
  induction ks generalizing g with
  | nil => exact ⟨g, rfl, rfl, rfl, hd⟩
  | cons k ks ih =>
    rw [List.length_cons] at hl
    have hlt : g.map.lastIndex < maxUint64 := by omega
    obtain ⟨e, he⟩ := (mapLookup_isSome_iff k g.map.data).mpr (hk k (List.mem_cons_self k ks))
    unfold WithLock.reindexLoop
    rw [WithLock_getIndex_of_lt fuel g hlt]
    simp only [he]
    obtain ⟨g1, h1, h2, h3, h4⟩ := ih
      (Guarded.access true
        { map := { data := mapUpdate k (fun e => { e with index := g.map.lastIndex + 1 })
                     g.map.data,
                   lastIndex := g.map.lastIndex + 1 },
          lock := g.lock,
          log := g.log ++ [{ write := false, lock := g.lock },
                           { write := true, lock := g.lock }] })
      (by
        intro a ha
        simp only [Guarded.access, keysOf_mapUpdate]
        exact hk a (List.mem_cons_of_mem k ha))
      (by
        simp only [Guarded.access]
        omega)
      hw
      (by
        simp only [Guarded.access, disciplined_append, hd, Bool.true_and]
        simp [disciplined, Access.guarded, hw])
    refine ⟨g1, h1, ?_, h3, h4⟩
    rw [h2]
    simp only [Guarded.access, renumber, List.length_cons]
    congr 1
    omega

/-- When `lastIndex + len <= math.MaxUint64`, the method `Reindex` called with the lock
free returns with the lock free, makes every access under the exclusive lock, and does to
the store and the counter what the definition without the lock does. -/
theorem WithLock_Reindex_of_le (fuel : Nat) (o : OrderedStringMap V)
    (hl : o.lastIndex + o.data.length ≤ maxUint64) :
    ∃ g, WithLock.Reindex fuel (unlocked o) = Outcome.returned g ∧
      g.lock = { writer := false, readers := 0 } ∧ Reindex fuel o = some g.map ∧
      disciplined g.log = true := by
  obtain ⟨g1, h1, h2, h3, h4⟩ := WithLock_reindexLoop_of_le fuel (getKeys false o)
    (Guarded.access false { unlocked o with lock := { writer := true, readers := 0 } })
    (fun a ha => (getKeys_perm false o).subset ha)
    (by
      simp only [Guarded.access, unlocked, getKeys_length]
      exact hl)
    rfl rfl
  refine ⟨{ g1 with lock := g1.lock.Unlock }, ?_, ?_, ?_, h4⟩
  · unfold WithLock.Reindex WithLock.reindexWith
    have hlock : (unlocked o).lock.Lock = some { writer := true, readers := 0 } := rfl
    rw [hlock]
    simp only [WithLock.getKeys, Bool.false_eq_true, if_false, Outcome.bind]
    have hkeys : getKeys false (unlocked o).map = getKeys false o := rfl
    rw [hkeys, h1]
  · simp only [h3, Guarded.access, RWMutex.Unlock]
  · rw [Reindex_of_le fuel o hl, h2]
    simp only [Guarded.access, unlocked, getKeys_length]

/-- When a `getIndex` of the loop finds the counter at `math.MaxUint64`, the loop of
`Reindex` run under the exclusive lock never returns. -/
theorem WithLock_reindexLoop_blocks (fuel : Nat) (ks : List String) (g : Guarded V)
    (hk : ∀ a ∈ ks, a ∈ keysOf g.map.data) (hle : g.map.lastIndex ≤ maxUint64)
    (hgt : maxUint64 < g.map.lastIndex + ks.length) (hw : g.lock.writer = true) :
    WithLock.reindexLoop (WithLock.getIndex (fuel + 1)) ks g = Outcome.blocked := by
  induction ks generalizing g with
  | nil =>
    simp only [List.length_nil, Nat.add_zero] at hgt
    omega
  | cons k ks ih =>
    rw [List.length_cons] at hgt
    unfold WithLock.reindexLoop
    by_cases heq : g.map.lastIndex = maxUint64
    · rw [getIndex_blocks_of_held fuel g hw heq]
    · have hlt : g.map.lastIndex < maxUint64 := Nat.lt_of_le_of_ne hle heq
      obtain ⟨e, he⟩ :=
        (mapLookup_isSome_iff k g.map.data).mpr (hk k (List.mem_cons_self k ks))
      rw [WithLock_getIndex_of_lt (fuel + 1) g hlt]
      simp only [he]
      apply ih
      · intro a ha
        simp only [Guarded.access, keysOf_mapUpdate]
        exact hk a (List.mem_cons_of_mem k ha)
      · simp only [Guarded.access]
        omega
      · simp only [Guarded.access]
        omega
      · exact hw

/-- When `lastIndex + len > math.MaxUint64`, the method `Reindex` called with the lock free
never returns, whatever the fuel: a `getIndex` of its loop finds the counter full and
calls `Reindex`, which waits for the lock the outer call holds. -/
theorem WithLock_Reindex_blocks_of_gt (fuel : Nat) (o : OrderedStringMap V)
    (hle : o.lastIndex ≤ maxUint64) (hgt : maxUint64 < o.lastIndex + o.data.length) :
    WithLock.Reindex (fuel + 1) (unlocked o) = Outcome.blocked := by
  unfold WithLock.Reindex WithLock.reindexWith
  have hlock : (unlocked o).lock.Lock = some { writer := true, readers := 0 } := rfl
  rw [hlock]
  simp only [WithLock.getKeys, Bool.false_eq_true, if_false, Outcome.bind]
  have hkeys : getKeys false (unlocked o).map = getKeys false o := rfl
  rw [hkeys, WithLock_reindexLoop_blocks fuel (getKeys false o) _
    (fun a ha => (getKeys_perm false o).subset ha) hle
    (by
      simp only [Guarded.access, unlocked, getKeys_length]
      exact hgt) rfl]

/-- The method `Reindex` with its lock, in every reachable state with
`lastIndex + len <= math.MaxUint64`: it returns with the lock free, and afterwards
`GetKeys()` is the identical sequence and `Len()` and every `Get(k)` are unchanged. -/
theorem WithLock_Reindex_preserves_order (s : OrderedStringMap V) (hs : Reachable s)
    (hl : s.lastIndex + Len s ≤ maxUint64) (fuel : Nat) :
    ∃ g, WithLock.Reindex fuel (unlocked s) = Outcome.returned g ∧
      g.lock = { writer := false, readers := 0 } ∧ GetKeys g.map = GetKeys s ∧
      Len g.map = Len s ∧ ∀ k, Get k g.map = Get k s := by
  obtain ⟨g, h1, h2, h3, _⟩ := WithLock_Reindex_of_le fuel s hl
  obtain ⟨s1, h4, h5, h6, h7⟩ :=
    Reindex_updates_preserve_order s hs (fuel + 1) (Nat.le_add_left 1 fuel)
  rw [Reindex_mono fuel s g.map h3] at h4
  cases h4
  exact ⟨g, h1, h2, h5, h6, h7⟩

/-- The method `Add` with its lock, in every reachable state below `math.MaxUint64`: it
returns with the lock free, and afterwards `GetKeys()` is the previous `GetKeys()` with
the key removed, followed by the key. -/
theorem WithLock_Add_moves_key (s : OrderedStringMap V) (hs : Reachable s)
    (hl : s.lastIndex < maxUint64) (fuel : Nat) (k : String) (v : Option V) :
    ∃ g, WithLock.Add fuel k v (unlocked s) = Outcome.returned g ∧
      g.lock = { writer := false, readers := 0 } ∧
      GetKeys g.map = (GetKeys s).erase k ++ [k] := by
  obtain ⟨g, h1, h2, h3, _⟩ := WithLock_Add_of_lt fuel k v s hl
  obtain ⟨s1, h4, h5, _⟩ := Add_spec fuel k v s hs.inv (Or.inl hl)
  rw [h3] at h4
  cases h4
  refine ⟨g, h1, h2, ?_⟩
  rw [erase_eq_filter_ne (GetKeys_nodup hs.inv)]
  exact h5

/-- C9 fails on the code: in the reachable states `exampleMapFull` (counter at
`math.MaxUint64`) and `exampleMapNearFull` (counter one below, two entries) a public
`Reindex()` called with the lock free never returns, so there is no `GetKeys()` after it:
a `getIndex` of its loop finds the counter full and calls `Reindex`, which waits for the
lock the outer call holds.  The renumbering itself, the lock left out, would keep the
order; and where no `getIndex` of the loop finds the counter full (here `exampleMap2`)
`Reindex()` returns with the lock free and `GetKeys()`, `Len()` and every `Get(k)` are
unchanged. -/
theorem C9_reindex_blocks_near_overflow :
    Reachable exampleMapFull ∧ exampleMapFull.lastIndex = maxUint64 ∧
    WithLock.Reindex 1 (unlocked exampleMapFull) = Outcome.blocked ∧
    Reachable exampleMapNearFull ∧ exampleMapNearFull.lastIndex < maxUint64 ∧
    WithLock.Reindex 1 (unlocked exampleMapNearFull) = Outcome.blocked ∧
    WithLock.Reindex 2 (unlocked exampleMapNearFull) = Outcome.blocked ∧
    (Reindex 1 exampleMapFull).map GetKeys = some (GetKeys exampleMapFull) ∧
    (Reindex 1 exampleMapNearFull).map GetKeys = some (GetKeys exampleMapNearFull) ∧
    (∃ g, WithLock.Reindex 1 (unlocked exampleMap2) = Outcome.returned g ∧
      g.lock = { writer := false, readers := 0 } ∧ GetKeys g.map = GetKeys exampleMap2 ∧
      Len g.map = Len exampleMap2 ∧ ∀ k, Get k g.map = Get k exampleMap2) :=
  ⟨exampleMapFull_reachable, rfl,
    WithLock_Reindex_blocks 0 exampleMapFull rfl (by decide),
    exampleMapNearFull_reachable, by decide,
    WithLock_Reindex_blocks_of_gt 0 exampleMapNearFull (by decide) (by decide),
    WithLock_Reindex_blocks_of_gt 1 exampleMapNearFull (by decide) (by decide),
    by decide, by decide,
    WithLock_Reindex_preserves_order exampleMap2 exampleMap2_reachable (by decide) 1⟩

/-- C11 fails on the code: in the reachable state `exampleMapFull` (counter at
`math.MaxUint64`, lock free) `Add(k, v)` never returns, for a present key and for an
absent one, so there is no `GetKeys()` after it: `Add` holds the exclusive lock and
`getIndex` calls `Reindex`, which waits for it.  The renumbering itself, the lock left
out, would move the key to the end and keep the stamps distinct. -/
theorem C11_add_blocks_before_reordering :
    Reachable exampleMapFull ∧ exampleMapFull.lastIndex = maxUint64 ∧
    WithLock.Add 1 "y" (some 9) (unlocked exampleMapFull) = Outcome.blocked ∧
    WithLock.Add 2 "y" (some 9) (unlocked exampleMapFull) = Outcome.blocked ∧
    WithLock.Add 1 "w" (some 9) (unlocked exampleMapFull) = Outcome.blocked ∧
    (Add 1 "y" (some 9) exampleMapFull).map GetKeys =
      some ((GetKeys exampleMapFull).erase "y" ++ ["y"]) ∧
    (Add 1 "y" (some 9) exampleMapFull).map stampsInOrder = some [2, 3] :=
  ⟨exampleMapFull_reachable, rfl,
    WithLock_Add_blocks 0 "y" (some 9) exampleMapFull rfl,
    WithLock_Add_blocks 1 "y" (some 9) exampleMapFull rfl,
    WithLock_Add_blocks 0 "w" (some 9) exampleMapFull rfl,
    by decide, by decide⟩

end Claims

end OrderedMap
